import Mathlib

/-!
Verification of the backup tool's chunking, packing, deduplication and
index-building core, as a shallow embedding of `src/main.rs`, `src/lib.rs`
and `src/db.rs`.

Modelling conventions:
* Byte strings (file contents, relative path bytes) are `List Nat`.
* The 16-byte truncated BLAKE3 digest is modelled as an abstract `Nat`
  produced by a parameter `hashOf : List Nat → Nat` applied to the bytes
  that the Rust code feeds into the hasher (the hash algorithm itself is an
  external crate).
* A scanned file's ground truth is its byte content; the scanner metadata
  size equals the content length (`FileEntry.size`).
* Machine integers (`u64` sizes, offsets, counters) are `Nat`; the bak
  counter `bak_n : i32` starts at 0 and is only incremented, so it is a
  `Nat` as well.  The one place where overflow is observable at realistic
  inputs (`FileNanoTime::from`) is modelled with an explicit `% 2 ^ 64`.
* Rust `HashMap` pointer identity (`new_files_ref_map` in
  `differential_backup`) is modelled by tagging each scanned file with its
  index in the scan list (`List.enum`), which is exactly what the address
  of a vector element identifies.
-/

/-- Relative path bytes, as in `PathBytes` of `src/lib.rs`. -/
abbrev PathBytes : Type := List Nat

/-- Lexicographic order on path bytes; embeds the total order used by
`sort_by(|a, b| a.1.path.cmp(&b.1.path))`. -/
def pathLe : PathBytes → PathBytes → Bool
  | [], _ => true
  | _ :: _, [] => false
  | a :: as, b :: bs => if a < b then true else if b < a then false else pathLe as bs

/-- One scanned regular file (`FileEntry` of `src/lib.rs`): relative path
bytes, mtime scalar and its byte content (the scanner's `size` field is the
content length). -/
structure FileEntry where
  path : PathBytes
  mtime : Nat
  content : List Nat
deriving DecidableEq

/-- Scanner-reported size of a file (`metadata.len()`). -/
def FileEntry.size (e : FileEntry) : Nat := e.content.length

/-- One row of the `index` table (`IndexRow` of `src/db.rs`). -/
structure IndexRow where
  path : PathBytes
  size : Nat
  mtime : Nat
  hash : Nat
deriving DecidableEq

/-- One row of the `chunk` table (`ChunkRow` of `src/db.rs`). -/
structure ChunkRow where
  file_hash : Nat
  chunk_hash : Nat
  bak_n : Nat
  offset : Nat
  size : Nat
deriving DecidableEq

/-- Per-chunk placement record (`ChunkInfo` of `src/lib.rs`). -/
structure ChunkInfo where
  hash : Nat
  bak_n : Nat
  offset : Nat
  size : Nat
deriving DecidableEq

/-- Per-file split record (`SplitInfo` of `src/lib.rs`). -/
structure SplitInfo where
  file_hash : Nat
  chunks : List ChunkInfo
deriving DecidableEq

/-- Chunk byte range (`Range` of `src/lib.rs`). -/
structure Range where
  start : Nat
  size : Nat
deriving DecidableEq

/-- Embeds `chunks_ranges` of `src/lib.rs`: `file_size / chunk_size` full
chunks followed by the nonzero remainder chunk, if any. -/
def chunks_ranges (chunk_size file_size : Nat) : List Range :=
  (List.range (file_size / chunk_size)).map
      (fun i => { start := chunk_size * i, size := chunk_size })
    ++ (if file_size % chunk_size ≠ 0 then
          [{ start := chunk_size * (file_size / chunk_size), size := file_size % chunk_size }]
        else [])

/-- Bytes of one chunk range, as read sequentially by the bounded
`reader.by_ref().take(r.size)` sub-readers in `write_bak_files`. -/
def sliceBytes (content : List Nat) (r : Range) : List Nat :=
  (content.drop r.start).take r.size

/-- The (declared size, bytes) list of a file's chunks, in file order. -/
def fileChunks (chunk_size : Nat) (content : List Nat) : List (Nat × List Nat) :=
  (chunks_ranges chunk_size content.length).map (fun r => (r.size, sliceBytes content r))

/-- Mutable state of the packing loop in `write_bak_files` of
`src/main.rs`: current bak number, its payload counters, and the payloads
written so far (`baks n` is the payload of file `bak{n}`; on an unfiltered
run these are the on-disk bytes). -/
structure PackState where
  bak_n : Nat
  bak_total_size : Nat
  chunk_offset : Nat
  baks : Nat → List Nat

/-- State at the start of `write_bak_files`: `bak0` freshly created and
empty, all counters zero. -/
def initPackState : PackState :=
  { bak_n := 0, bak_total_size := 0, chunk_offset := 0, baks := fun _ => [] }

/-- One iteration of the inner chunk loop of `write_bak_files`
(`src/main.rs` lines 223-257): rotate to a fresh bak when the declared
chunk size would overflow the cap, then copy the chunk bytes into the
current bak, record its placement, and advance both counters by the
declared size. -/
def writeChunkStep (cap : Nat) (hashOf : List Nat → Nat) (s : PackState)
    (p : Nat × List Nat) : PackState × ChunkInfo :=
  let s1 : PackState :=
    if s.bak_total_size + p.1 > cap then
      { bak_n := s.bak_n + 1, bak_total_size := 0, chunk_offset := 0, baks := s.baks }
    else s
  let ci : ChunkInfo :=
    { hash := hashOf p.2, bak_n := s1.bak_n, offset := s1.chunk_offset, size := p.1 }
  ({ bak_n := s1.bak_n,
     bak_total_size := s1.bak_total_size + p.1,
     chunk_offset := s1.chunk_offset + p.1,
     baks := fun n => if n = s1.bak_n then s1.baks n ++ p.2 else s1.baks n }, ci)

/-- Runs the chunk loop over a list of chunks, returning the final state
and the recorded placements in write order. -/
def packChunks (cap : Nat) (hashOf : List Nat → Nat) (s : PackState) :
    List (Nat × List Nat) → PackState × List ChunkInfo
  | [] => (s, [])
  | p :: ps =>
    let step := writeChunkStep cap hashOf s p
    let rest := packChunks cap hashOf step.1 ps
    (rest.1, step.2 :: rest.2)

/-- The outer file loop of `write_bak_files`: each `(file_hash, entry)`
input yields one `SplitInfo` holding its chunk placements. -/
def packFiles (chunk_size cap : Nat) (hashOf : List Nat → Nat) (s : PackState) :
    List (Nat × FileEntry) → List SplitInfo × PackState
  | [] => ([], s)
  | hf :: rest =>
    let res := packChunks cap hashOf s (fileChunks chunk_size hf.2.content)
    let r2 := packFiles chunk_size cap hashOf res.1 rest
    ({ file_hash := hf.1, chunks := res.2 } :: r2.1, r2.2)

/-- Embeds `write_bak_files` of `src/main.rs`, as a fold of the per-file
loop from the initial state. -/
def write_bak_files (chunk_size cap : Nat) (hashOf : List Nat → Nat)
    (files : List (Nat × FileEntry)) : List SplitInfo × PackState :=
  files.foldl
    (fun acc hf =>
      let res := packChunks cap hashOf acc.2 (fileChunks chunk_size hf.2.content)
      (acc.1 ++ [{ file_hash := hf.1, chunks := res.2 }], res.1))
    ([], initPackState)

/-- Embeds `IndexDbTx::insert_file_split_info` of `src/db.rs`: one chunk
row per placement, keyed by the split's file hash, in split order. -/
def insert_file_split_info (splits : List SplitInfo) : List ChunkRow :=
  splits.flatMap (fun s => s.chunks.map (fun c =>
    { file_hash := s.file_hash, chunk_hash := c.hash, bak_n := c.bak_n,
      offset := c.offset, size := c.size }))

/-- The `index` row written by `insert_index_row` for an entry and hash. -/
def rowOf (e : FileEntry) (h : Nat) : IndexRow :=
  { path := e.path, size := e.size, mtime := e.mtime, hash := h }

/-- Metadata-tier lookup of `differential_backup`: the reference rows are
collected into a `HashMap` keyed by `(path, mtime, size)`, so a duplicate
key keeps the last inserted row. -/
def metadataLookup (old : List IndexRow) (e : FileEntry) : Option IndexRow :=
  (old.filter (fun r =>
    r.path == e.path && r.mtime == e.mtime && r.size == e.size)).getLast?

/-- The reference index's multiset of file hashes (`old_index_hash_set`). -/
def refHashes (old : List IndexRow) : List Nat := old.map (·.hash)

/-- The metadata-tier loop of `differential_backup` (`src/main.rs` lines
82-88): files with a `(path, mtime, size)` match become `(entry, ref hash)`
duplicates, the rest are `remaining`, both in scan order. -/
def tier1Split (old : List IndexRow) (files : List (Nat × FileEntry)) :
    List ((Nat × FileEntry) × Nat) × List (Nat × FileEntry) :=
  files.foldl
    (fun acc e =>
      match metadataLookup old e.2 with
      | some r => (acc.1 ++ [(e, r.hash)], acc.2)
      | none => (acc.1, acc.2 ++ [e]))
    ([], [])

/-- The hash-tier loop of `differential_backup` (`src/main.rs` lines
94-102): each remaining file's content hash is computed; misses against
the reference hash set go to `files_to_backup`, hits become duplicates. -/
def tier2Split (hashOf : List Nat → Nat) (hs : List Nat)
    (remaining : List (Nat × FileEntry)) :
    List (Nat × (Nat × FileEntry)) × List ((Nat × FileEntry) × Nat) :=
  remaining.foldl
    (fun acc e =>
      let h := hashOf e.2.content
      if h ∈ hs then (acc.1, acc.2 ++ [(e, h)])
      else (acc.1 ++ [(h, e)], acc.2))
    ([], [])

/-- Stable sort by relative path, embedding `sort_by(|a, b|
a.1.path.cmp(&b.1.path))`. -/
def sortByPath {α : Type} (key : α → PathBytes) (l : List α) : List α :=
  l.mergeSort (fun a b => pathLe (key a) (key b))

/-- The scan-order list of files tagged with their vector index (the
pointer-identity model of `&files` elements). -/
def scanIdx (files : List FileEntry) : List (Nat × FileEntry) := files.enum

/-- Remaining files after the metadata tier, in scan order. -/
def diffRemaining (old : List IndexRow) (files : List FileEntry) :
    List (Nat × FileEntry) :=
  (tier1Split old (scanIdx files)).2

/-- The `duplicates` vector at the end of the two tiers: metadata-tier
entries first, then hash-tier entries. -/
def diffDuplicates (old : List IndexRow) (hashOf : List Nat → Nat)
    (files : List FileEntry) : List ((Nat × FileEntry) × Nat) :=
  (tier1Split old (scanIdx files)).1
    ++ (tier2Split hashOf (refHashes old) (diffRemaining old files)).2

/-- The `files_to_backup` vector before sorting. -/
def diffToBackup (old : List IndexRow) (hashOf : List Nat → Nat)
    (files : List FileEntry) : List (Nat × (Nat × FileEntry)) :=
  (tier2Split hashOf (refHashes old) (diffRemaining old files)).1

/-- The `files_to_backup` vector after the path sort, as handed to
`write_bak_files`. -/
def diffFilesToBackup (old : List IndexRow) (hashOf : List Nat → Nat)
    (files : List FileEntry) : List (Nat × (Nat × FileEntry)) :=
  sortByPath (fun x => x.2.2.path) (diffToBackup old hashOf files)

/-- Committed artifacts of one run: `index` table rows in insertion order,
the split infos (whose expansion is the `chunk` table), and the final pack
state. -/
structure BackupRun where
  indexRows : List IndexRow
  splits : List SplitInfo
  pack : PackState

/-- Embeds `differential_backup` of `src/main.rs`: two deduplication
tiers, path sort, packing, then index rows for the to-write files (looked
up by pointer identity, modelled as the scan index) followed by the
duplicate rows. -/
def differential_backup (chunk_size cap : Nat) (hashOf : List Nat → Nat)
    (old : List IndexRow) (files : List FileEntry) : BackupRun :=
  let filesIdx := scanIdx files
  let ftb := diffFilesToBackup old hashOf files
  let wr := write_bak_files chunk_size cap hashOf (ftb.map (fun x => (x.1, x.2.2)))
  let rows1 := filesIdx.filterMap
    (fun ie => (ftb.find? (fun x => x.2.1 == ie.1)).map (fun x => rowOf x.2.2 x.1))
  let rows2 := (diffDuplicates old hashOf files).map (fun d => rowOf d.1.2 d.2)
  { indexRows := rows1 ++ rows2, splits := wr.1, pack := wr.2 }

/-- The `unique_list` hash map of `initial_backup`: entries are inserted
in scan order keyed by file hash, a later file with the same hash
overwriting the earlier one.  The map's (arbitrary) iteration order is
immaterial because the collected list is path-sorted afterwards. -/
def lastPerHash (l : List (Nat × FileEntry)) : List (Nat × FileEntry) :=
  l.foldl (fun acc p => acc.filter (fun q => q.1 != p.1) ++ [p]) []

/-- The representatives handed to `write_bak_files` by `initial_backup`. -/
def initialFilesToBackup (hashOf : List Nat → Nat) (files : List FileEntry) :
    List (Nat × FileEntry) :=
  sortByPath (fun x => x.2.path) (lastPerHash (files.map (fun e => (hashOf e.content, e))))

/-- Embeds `initial_backup` of `src/main.rs`: hash every scanned file,
pack one representative per unique hash in path order, and write one index
row per scanned file carrying its own hash. -/
def initial_backup (chunk_size cap : Nat) (hashOf : List Nat → Nat)
    (files : List FileEntry) : BackupRun :=
  let file_hash_list := files.map (fun e => hashOf e.content)
  let wr := write_bak_files chunk_size cap hashOf (initialFilesToBackup hashOf files)
  { indexRows := (files.zip file_hash_list).map (fun x => rowOf x.1 x.2),
    splits := wr.1, pack := wr.2 }

/-- Embeds `FileNanoTime::from<FileTime>` of `src/lib.rs`: the `i64` unix
seconds are converted with `try_into::<u64>()`, panicking (`none`) on
negative values, then combined as `sec * 1_000_000_000 + nanos` in `u64`
arithmetic. -/
def fileNanoTimeFrom (unixSeconds : Int) (nanoseconds : Nat) : Option Nat :=
  if unixSeconds < 0 then none
  else some ((unixSeconds.toNat * 1000000000 + nanoseconds) % 2 ^ 64)

/-- Raw scanner observation of one regular file before mtime conversion. -/
structure RawFile where
  path : PathBytes
  size : Nat
  mtimeSec : Int
  mtimeNanos : Nat
deriving DecidableEq

/-- Scan-level file record produced by `index_files` of `src/lib.rs`. -/
structure ScanEntry where
  path : PathBytes
  size : Nat
  mtime : Nat
deriving DecidableEq

/-- Embeds the collection loop of `index_files` of `src/lib.rs`: every
regular file's mtime is converted through `FileNanoTime::from`; a panic
there (`none`) aborts the whole scan. -/
def index_files (l : List RawFile) : Option (List ScanEntry) :=
  l.mapM (fun f => (fileNanoTimeFrom f.mtimeSec f.mtimeNanos).map
    (fun t => { path := f.path, size := f.size, mtime := t }))

/-- Modelled from the spec: `index_pick_last` (imported by `src/main.rs`
but absent from `src/`) yields the reference index database selected by
the optional `--ref-index` CLI argument, whose absence selects the initial
mode and whose presence selects the differential mode with exactly that
file (§6 of the spec). -/
def index_pick_last (ref_index : Option PathBytes) : Option PathBytes :=
  ref_index

/-- Which protocol `main` runs, and with which reference database. -/
inductive Mode where
  | initial : Mode
  | differential : PathBytes → Mode
deriving DecidableEq

/-- Embeds the `match &ctx.last_index` dispatch of `main` in
`src/main.rs`. -/
def mainMode (ref_index : Option PathBytes) : Mode :=
  match index_pick_last ref_index with
  | none => Mode.initial
  | some p => Mode.differential p

/-- Sum of the declared sizes of a list of placements. -/
def sumSizes (l : List ChunkInfo) : Nat := (l.map (·.size)).sum

/-- The write-order placement discipline of the packing loop, started at
bak `bn` whose payload already holds `off` bytes: each chunk either fits
and is laid at the current end of the current bak, or would overflow the
cap and is laid whole at offset 0 of the next bak. -/
def packedOk (cap : Nat) : Nat → Nat → List ChunkInfo → Prop
  | _, _, [] => True
  | bn, off, c :: rest =>
    (off + c.size ≤ cap ∧ c.bak_n = bn ∧ c.offset = off ∧
      packedOk cap bn (off + c.size) rest)
    ∨ (cap < off + c.size ∧ c.bak_n = bn + 1 ∧ c.offset = 0 ∧
      packedOk cap (bn + 1) c.size rest)

/-- Decision procedure for `packedOk`. -/
def packedOkDec (cap : Nat) :
    (l : List ChunkInfo) → (bn off : Nat) → Decidable (packedOk cap bn off l)
  | [], _, _ => isTrue trivial
  | c :: rest, bn, off =>
    haveI d1 : Decidable (packedOk cap bn (off + c.size) rest) :=
      packedOkDec cap rest bn (off + c.size)
    haveI d2 : Decidable (packedOk cap (bn + 1) c.size rest) :=
      packedOkDec cap rest (bn + 1) c.size
    inferInstanceAs (Decidable (_ ∨ _))

instance (cap bn off : Nat) (l : List ChunkInfo) : Decidable (packedOk cap bn off l) :=
  packedOkDec cap l bn off

/-- The placements of one bak tile an interval contiguously from `o`:
offsets advance by exactly each chunk's size, with no gap or overlap. -/
def tilesFrom : Nat → List ChunkInfo → Prop
  | _, [] => True
  | o, c :: rest => c.offset = o ∧ tilesFrom (o + c.size) rest

/-- Decision procedure for `tilesFrom`. -/
def tilesFromDec : (l : List ChunkInfo) → (o : Nat) → Decidable (tilesFrom o l)
  | [], _ => isTrue trivial
  | c :: rest, o =>
    haveI d1 : Decidable (tilesFrom (o + c.size) rest) := tilesFromDec rest (o + c.size)
    inferInstanceAs (Decidable (_ ∧ _))

instance (o : Nat) (l : List ChunkInfo) : Decidable (tilesFrom o l) :=
  tilesFromDec l o

/-! ## Lemmas about chunk ranges -/

theorem range_map_size_replicate (S n : Nat) :
    ((List.range n).map (fun i => ({ start := S * i, size := S } : Range))).map
      (fun r => r.size) = List.replicate n S := by
  have hc : ((fun r : Range => r.size) ∘ fun i : Nat =>
      ({ start := S * i, size := S } : Range)) = fun _ : Nat => S := rfl
  rw [List.map_map, hc, List.map_const', List.length_range]

theorem chunks_ranges_map_size (S sz : Nat) :
    (chunks_ranges S sz).map (·.size) =
      List.replicate (sz / S) S ++ (if sz % S ≠ 0 then [sz % S] else []) := by
  unfold chunks_ranges
  by_cases h : sz % S = 0
  · rw [if_neg (by simp [h]), if_neg (by simp [h]), List.append_nil, List.append_nil]
    exact range_map_size_replicate S (sz / S)
  · rw [if_pos h, if_pos h, List.map_append]
    rw [range_map_size_replicate S (sz / S)]
    rfl

theorem chunks_ranges_map_start (S sz : Nat) :
    (chunks_ranges S sz).map (·.start) =
      (List.range (chunks_ranges S sz).length).map (fun i => S * i) := by
  have hc : ((fun r : Range => r.start) ∘ fun i : Nat =>
      ({ start := S * i, size := S } : Range)) = fun i : Nat => S * i := rfl
  unfold chunks_ranges
  by_cases h : sz % S = 0
  · rw [if_neg (by simp [h]), List.append_nil, List.length_map, List.length_range,
      List.map_map, hc]
  · rw [if_pos h, List.map_append, List.map_map, hc, List.length_append,
      List.length_map, List.length_range, List.length_singleton, List.range_succ,
      List.map_append]
    rfl

theorem chunks_ranges_sum (S sz : Nat) (hS : 0 < S) :
    (((chunks_ranges S sz).map (·.size)).sum) = sz := by
  rw [chunks_ranges_map_size]
  have hdm := Nat.div_add_mod sz S
  by_cases h : sz % S = 0
  · rw [if_neg (by simp [h]), List.append_nil, List.sum_replicate, smul_eq_mul]
    calc sz / S * S = S * (sz / S) := Nat.mul_comm _ _
    _ = S * (sz / S) + sz % S := by rw [h, Nat.add_zero]
    _ = sz := hdm
  · rw [if_pos h, List.sum_append, List.sum_replicate, smul_eq_mul]
    simp only [List.sum_cons, List.sum_nil, Nat.add_zero]
    calc sz / S * S + sz % S = S * (sz / S) + sz % S := by rw [Nat.mul_comm]
    _ = sz := hdm

theorem chunks_ranges_mem_size (S sz : Nat) (hS : 0 < S) :
    ∀ r ∈ chunks_ranges S sz, 0 < r.size ∧ r.size ≤ S := by
  intro r hr
  unfold chunks_ranges at hr
  rcases List.mem_append.1 hr with h | h
  · rcases List.mem_map.1 h with ⟨i, _, rfl⟩
    exact ⟨hS, le_refl S⟩
  · by_cases hm : sz % S = 0
    · rw [if_neg (by simp [hm])] at h
      exact absurd h (List.not_mem_nil r)
    · rw [if_pos hm, List.mem_singleton] at h
      subst h
      exact ⟨Nat.pos_of_ne_zero hm, le_of_lt (Nat.mod_lt _ hS)⟩

theorem chunks_ranges_dropLast_size (S sz : Nat) :
    ∀ r ∈ (chunks_ranges S sz).dropLast, r.size = S := by
  intro r hr
  unfold chunks_ranges at hr
  by_cases hm : sz % S = 0
  · rw [if_neg (by simp [hm]), List.append_nil] at hr
    have hmem := (List.dropLast_sublist _).mem hr
    rcases List.mem_map.1 hmem with ⟨i, _, rfl⟩
    rfl
  · rw [if_pos hm, List.dropLast_concat] at hr
    rcases List.mem_map.1 hr with ⟨i, _, rfl⟩
    rfl

theorem chunks_ranges_zero (S : Nat) : chunks_ranges S 0 = [] := by
  unfold chunks_ranges
  simp

theorem fileChunks_nil (S : Nat) : fileChunks S [] = [] := by
  unfold fileChunks
  simp [chunks_ranges_zero]

theorem emptyFile_no_rows (S cap : Nat) (hashOf : List Nat → Nat) (h : Nat)
    (e : FileEntry) (he : e.content = []) :
    insert_file_split_info (write_bak_files S cap hashOf [(h, e)]).1 = [] := by
  unfold write_bak_files insert_file_split_info
  simp [he, fileChunks_nil, packChunks]

/-! ## Claim theorems: CLI mode, chunk ranges, mtime conversion, the S1
boundary scenario -/

/-- Claim C1: the backup mode is selected by the presence of the
`--ref-index` argument: absence runs the initial backup, presence runs the
differential backup against exactly the passed index database. -/
theorem claim_c1_mode_selection :
    mainMode none = Mode.initial ∧
      ∀ p : PathBytes, mainMode (some p) = Mode.differential p :=
  ⟨rfl, fun _ => rfl⟩

/-- Claim C5: for every file size, the chunk ranges are `size / S` chunks
of size `S` followed by the remainder `size mod S` exactly when it is
nonzero; the i-th range starts at `i * S`, every chunk size is in
`(0, S]`, all but possibly the last equal `S`, the sizes sum to the file
size, and a size-0 file yields no ranges and contributes no chunk rows. -/
theorem claim_c5_chunks_ranges (S sz : Nat) (hS : 0 < S) :
    ((chunks_ranges S sz).map (·.size) =
        List.replicate (sz / S) S ++ (if sz % S ≠ 0 then [sz % S] else [])) ∧
    ((chunks_ranges S sz).map (·.start) =
        (List.range (chunks_ranges S sz).length).map (fun i => S * i)) ∧
    (((chunks_ranges S sz).map (·.size)).sum = sz) ∧
    (∀ r ∈ chunks_ranges S sz, 0 < r.size ∧ r.size ≤ S) ∧
    (∀ r ∈ (chunks_ranges S sz).dropLast, r.size = S) ∧
    (chunks_ranges S 0 = []) ∧
    (∀ cap hashOf h (e : FileEntry), e.content = [] →
      insert_file_split_info (write_bak_files S cap hashOf [(h, e)]).1 = []) :=
  ⟨chunks_ranges_map_size S sz, chunks_ranges_map_start S sz,
   chunks_ranges_sum S sz hS, chunks_ranges_mem_size S sz hS,
   chunks_ranges_dropLast_size S sz, chunks_ranges_zero S,
   fun cap hashOf h e he => emptyFile_no_rows S cap hashOf h e he⟩

/-- Witness for claim C5 at `S = 4`, `sz = 10`. -/
theorem claim_c5_witness :
    0 < 4 ∧
    ((chunks_ranges 4 10).map (·.size) =
        List.replicate (10 / 4) 4 ++ (if 10 % 4 ≠ 0 then [10 % 4] else [])) ∧
    (((chunks_ranges 4 10).map (·.size)).sum = 10) :=
  ⟨by decide, (claim_c5_chunks_ranges 4 10 (by decide)).1,
    (claim_c5_chunks_ranges 4 10 (by decide)).2.2.1⟩

theorem index_files_neg_aborts (f : RawFile) (hneg : f.mtimeSec < 0) :
    ∀ l : List RawFile, f ∈ l → index_files l = none := by
  intro l
  induction l with
  | nil => intro h; cases h
  | cons a t ih =>
    intro hf
    rcases List.mem_cons.1 hf with rfl | hmem
    · unfold index_files fileNanoTimeFrom
      rw [List.mapM_cons]
      simp [if_pos hneg]
    · have ht := ih hmem
      unfold index_files at ht ⊢
      rw [List.mapM_cons, ht]
      cases (fileNanoTimeFrom a.mtimeSec a.mtimeNanos).map
          (fun tt => ({ path := a.path, size := a.size, mtime := tt } : ScanEntry)) with
      | none => rfl
      | some v => rfl

/-- Claim C10: the mtime conversion is defined only at or after the Unix
epoch: it computes `seconds * 10^9 + nanoseconds` for nonnegative seconds
and panics on negative seconds, which aborts the whole scan in
`index_files`. -/
theorem claim_c10_mtime_conversion :
    (∀ (sec : Int) (n : Nat), sec < 0 → fileNanoTimeFrom sec n = none) ∧
    (∀ (sec : Int) (n : Nat), 0 ≤ sec →
      fileNanoTimeFrom sec n = some ((sec.toNat * 1000000000 + n) % 2 ^ 64)) ∧
    (∀ (l : List RawFile) (f : RawFile), f ∈ l → f.mtimeSec < 0 →
      index_files l = none) := by
  refine ⟨?_, ?_, ?_⟩
  · intro sec n h
    unfold fileNanoTimeFrom
    rw [if_pos h]
  · intro sec n h
    unfold fileNanoTimeFrom
    rw [if_neg (by omega)]
  · intro l f hf hneg
    exact index_files_neg_aborts f hneg l hf

/-- Witness for claim C10: a file stamped five seconds before the epoch
aborts the scan. -/
theorem claim_c10_witness :
    ((-5 : Int) < 0) ∧
      index_files [{ path := [97], size := 1, mtimeSec := -5, mtimeNanos := 3 }] = none :=
  ⟨by decide,
    claim_c10_mtime_conversion.2.2
      [{ path := [97], size := 1, mtimeSec := -5, mtimeNanos := 3 }]
      { path := [97], size := 1, mtimeSec := -5, mtimeNanos := 3 }
      (List.mem_singleton.2 rfl) (by decide)⟩

/-- Claim C3: the S1 boundary scenario.  With chunk size 4 and cap 10,
packing `a = "hello"` then `b = "world!!"` yields exactly the placements
(4 at 0, 1 at 4, 4 at 5 in bak 0 and 3 at 0 in bak 1), bak0's nine payload
bytes `hello` + `worl`, bak1's three payload bytes `d!!`, and the rotation
discipline of `packedOk` (rotate exactly when the cap would be passed). -/
theorem claim_c3_s1_scenario (ha hb : Nat) (hashOf : List Nat → Nat) :
    (write_bak_files 4 10 hashOf
        [(ha, { path := [97], mtime := 0, content := [104,101,108,108,111] }),
         (hb, { path := [98], mtime := 0, content := [119,111,114,108,100,33,33] })]).1 =
      [{ file_hash := ha, chunks :=
          [{ hash := hashOf [104,101,108,108], bak_n := 0, offset := 0, size := 4 },
           { hash := hashOf [111], bak_n := 0, offset := 4, size := 1 }] },
       { file_hash := hb, chunks :=
          [{ hash := hashOf [119,111,114,108], bak_n := 0, offset := 5, size := 4 },
           { hash := hashOf [100,33,33], bak_n := 1, offset := 0, size := 3 }] }] ∧
    (write_bak_files 4 10 hashOf
        [(ha, { path := [97], mtime := 0, content := [104,101,108,108,111] }),
         (hb, { path := [98], mtime := 0, content := [119,111,114,108,100,33,33] })]).2.baks 0 =
      [104,101,108,108,111,119,111,114,108] ∧
    (write_bak_files 4 10 hashOf
        [(ha, { path := [97], mtime := 0, content := [104,101,108,108,111] }),
         (hb, { path := [98], mtime := 0, content := [119,111,114,108,100,33,33] })]).2.baks 1 =
      [100,33,33] ∧
    (write_bak_files 4 10 hashOf
        [(ha, { path := [97], mtime := 0, content := [104,101,108,108,111] }),
         (hb, { path := [98], mtime := 0, content := [119,111,114,108,100,33,33] })]).2.bak_n = 1 ∧
    packedOk 10 0 0
      ((write_bak_files 4 10 hashOf
        [(ha, { path := [97], mtime := 0, content := [104,101,108,108,111] }),
         (hb, { path := [98], mtime := 0, content := [119,111,114,108,100,33,33] })]).1.flatMap
        (·.chunks)) := by
  refine ⟨?_, ?_, ?_, ?_, ?_⟩
  · simp [write_bak_files, packChunks, writeChunkStep, fileChunks, chunks_ranges,
      sliceBytes, initPackState]
  · simp [write_bak_files, packChunks, writeChunkStep, fileChunks, chunks_ranges,
      sliceBytes, initPackState]
  · simp [write_bak_files, packChunks, writeChunkStep, fileChunks, chunks_ranges,
      sliceBytes, initPackState]
  · simp [write_bak_files, packChunks, writeChunkStep, fileChunks, chunks_ranges,
      sliceBytes, initPackState]
  · simp [write_bak_files, packChunks, writeChunkStep, fileChunks, chunks_ranges,
      sliceBytes, initPackState, packedOk]

/-! ## The packing invariant -/

theorem packChunks_nil (cap : Nat) (hashOf : List Nat → Nat) (s : PackState) :
    packChunks cap hashOf s [] = (s, []) := rfl

theorem packChunks_cons_fst (cap : Nat) (hashOf : List Nat → Nat) (s : PackState)
    (p : Nat × List Nat) (ps : List (Nat × List Nat)) :
    (packChunks cap hashOf s (p :: ps)).1 =
      (packChunks cap hashOf (writeChunkStep cap hashOf s p).1 ps).1 := rfl

theorem packChunks_cons_snd (cap : Nat) (hashOf : List Nat → Nat) (s : PackState)
    (p : Nat × List Nat) (ps : List (Nat × List Nat)) :
    (packChunks cap hashOf s (p :: ps)).2 =
      (writeChunkStep cap hashOf s p).2 ::
        (packChunks cap hashOf (writeChunkStep cap hashOf s p).1 ps).2 := rfl

/-- The state after a chunk write that fits in the current bak. -/
def fitState (s : PackState) (p : Nat × List Nat) : PackState :=
  { bak_n := s.bak_n, bak_total_size := s.bak_total_size + p.1,
    chunk_offset := s.chunk_offset + p.1,
    baks := fun n => if n = s.bak_n then s.baks n ++ p.2 else s.baks n }

/-- The state after a chunk write that rotated to a fresh bak. -/
def rotState (s : PackState) (p : Nat × List Nat) : PackState :=
  { bak_n := s.bak_n + 1, bak_total_size := p.1, chunk_offset := p.1,
    baks := fun n => if n = s.bak_n + 1 then s.baks n ++ p.2 else s.baks n }

theorem writeChunkStep_fits_fst (cap : Nat) (hashOf : List Nat → Nat) (s : PackState)
    (p : Nat × List Nat) (h : ¬s.bak_total_size + p.1 > cap) :
    (writeChunkStep cap hashOf s p).1 = fitState s p := by
  simp only [writeChunkStep, fitState]
  rw [if_neg h]

theorem writeChunkStep_fits_snd (cap : Nat) (hashOf : List Nat → Nat) (s : PackState)
    (p : Nat × List Nat) (h : ¬s.bak_total_size + p.1 > cap) :
    (writeChunkStep cap hashOf s p).2 =
      { hash := hashOf p.2, bak_n := s.bak_n, offset := s.chunk_offset, size := p.1 } := by
  simp only [writeChunkStep]
  rw [if_neg h]

theorem writeChunkStep_rotates_fst (cap : Nat) (hashOf : List Nat → Nat) (s : PackState)
    (p : Nat × List Nat) (h : s.bak_total_size + p.1 > cap) :
    (writeChunkStep cap hashOf s p).1 = rotState s p := by
  simp only [writeChunkStep, rotState]
  rw [if_pos h]
  simp

theorem writeChunkStep_rotates_snd (cap : Nat) (hashOf : List Nat → Nat) (s : PackState)
    (p : Nat × List Nat) (h : s.bak_total_size + p.1 > cap) :
    (writeChunkStep cap hashOf s p).2 =
      { hash := hashOf p.2, bak_n := s.bak_n + 1, offset := 0, size := p.1 } := by
  simp only [writeChunkStep]
  rw [if_pos h]

theorem sumSizes_nil : sumSizes [] = 0 := rfl

theorem sumSizes_cons (c : ChunkInfo) (l : List ChunkInfo) :
    sumSizes (c :: l) = c.size + sumSizes l := by
  unfold sumSizes
  rw [List.map_cons, List.sum_cons]

theorem filter_bak_cons_pos (n : Nat) (c : ChunkInfo) (l : List ChunkInfo)
    (h : c.bak_n = n) :
    (c :: l).filter (fun x => x.bak_n == n) = c :: l.filter (fun x => x.bak_n == n) := by
  simp [List.filter_cons, h]

theorem filter_bak_cons_neg (n : Nat) (c : ChunkInfo) (l : List ChunkInfo)
    (h : ¬c.bak_n = n) :
    (c :: l).filter (fun x => x.bak_n == n) = l.filter (fun x => x.bak_n == n) := by
  simp [List.filter_cons, h]

/-- Invariant of the packing loop state: the two counters agree, the
current bak's payload length is the counter, baks beyond the current one
are untouched, and no payload exceeds the cap. -/
def PackInv (cap : Nat) (s : PackState) : Prop :=
  s.chunk_offset = s.bak_total_size ∧
  (s.baks s.bak_n).length = s.bak_total_size ∧
  (∀ n, s.bak_n < n → s.baks n = []) ∧
  s.bak_total_size ≤ cap ∧
  (∀ n, (s.baks n).length ≤ cap)

theorem initPackInv (cap : Nat) : PackInv cap initPackState :=
  ⟨rfl, rfl, fun _ _ => rfl, Nat.zero_le _, fun _ => Nat.zero_le _⟩

theorem rotState_baks_len (s : PackState) (p : Nat × List Nat) (hp2 : p.2.length = p.1) :
    ∀ n, ((rotState s p).baks n).length =
      (s.baks n).length + (if n = s.bak_n + 1 then p.1 else 0) := by
  intro n
  show (if n = s.bak_n + 1 then s.baks n ++ p.2 else s.baks n).length = _
  by_cases hn : n = s.bak_n + 1
  · rw [if_pos hn, if_pos hn, List.length_append, hp2]
  · rw [if_neg hn, if_neg hn, Nat.add_zero]

theorem fitState_baks_len (s : PackState) (p : Nat × List Nat) (hp2 : p.2.length = p.1) :
    ∀ n, ((fitState s p).baks n).length =
      (s.baks n).length + (if n = s.bak_n then p.1 else 0) := by
  intro n
  show (if n = s.bak_n then s.baks n ++ p.2 else s.baks n).length = _
  by_cases hn : n = s.bak_n
  · rw [if_pos hn, if_pos hn, List.length_append, hp2]
  · rw [if_neg hn, if_neg hn, Nat.add_zero]

theorem rotState_inv (cap : Nat) (s : PackState) (p : Nat × List Nat)
    (hs : PackInv cap s) (hp2 : p.2.length = p.1) (hp1 : p.1 ≤ cap) :
    PackInv cap (rotState s p) := by
  obtain ⟨hco, hlen, hhigh, hbts, hall⟩ := hs
  refine ⟨rfl, ?_, ?_, hp1, ?_⟩
  · show (if s.bak_n + 1 = s.bak_n + 1 then s.baks (s.bak_n + 1) ++ p.2
        else s.baks (s.bak_n + 1)).length = p.1
    rw [if_pos rfl, hhigh (s.bak_n + 1) (Nat.lt_succ_self _), List.nil_append, hp2]
  · intro n hn
    replace hn : s.bak_n + 1 < n := hn
    show (if n = s.bak_n + 1 then s.baks n ++ p.2 else s.baks n) = []
    rw [if_neg (by omega)]
    exact hhigh n (by omega)
  · intro n
    rw [rotState_baks_len s p hp2 n]
    by_cases hn : n = s.bak_n + 1
    · rw [if_pos hn, hn, hhigh (s.bak_n + 1) (Nat.lt_succ_self _)]
      simpa using hp1
    · rw [if_neg hn, Nat.add_zero]
      exact hall n

theorem fitState_inv (cap : Nat) (s : PackState) (p : Nat × List Nat)
    (hs : PackInv cap s) (hp2 : p.2.length = p.1)
    (h : ¬s.bak_total_size + p.1 > cap) :
    PackInv cap (fitState s p) := by
  obtain ⟨hco, hlen, hhigh, hbts, hall⟩ := hs
  refine ⟨by show s.chunk_offset + p.1 = s.bak_total_size + p.1; rw [hco],
    ?_, ?_, show s.bak_total_size + p.1 ≤ cap by omega, ?_⟩
  · show (if s.bak_n = s.bak_n then s.baks s.bak_n ++ p.2
        else s.baks s.bak_n).length = s.bak_total_size + p.1
    rw [if_pos rfl, List.length_append, hlen, hp2]
  · intro n hn
    replace hn : s.bak_n < n := hn
    show (if n = s.bak_n then s.baks n ++ p.2 else s.baks n) = []
    rw [if_neg (by omega)]
    exact hhigh n hn
  · intro n
    rw [fitState_baks_len s p hp2 n]
    by_cases hn : n = s.bak_n
    · rw [if_pos hn, hn, hlen]
      omega
    · rw [if_neg hn, Nat.add_zero]
      exact hall n

theorem packChunks_master (cap : Nat) (hashOf : List Nat → Nat) :
    ∀ (cs : List (Nat × List Nat)) (s : PackState),
      PackInv cap s →
      (∀ p ∈ cs, p.2.length = p.1 ∧ p.1 ≤ cap) →
      PackInv cap (packChunks cap hashOf s cs).1 ∧
      packedOk cap s.bak_n s.bak_total_size (packChunks cap hashOf s cs).2 ∧
      (∀ c ∈ (packChunks cap hashOf s cs).2, s.bak_n ≤ c.bak_n) ∧
      (∀ n, ((packChunks cap hashOf s cs).1.baks n).length =
        (s.baks n).length +
          sumSizes ((packChunks cap hashOf s cs).2.filter (fun c => c.bak_n == n))) := by
  intro cs
  induction cs with
  | nil =>
    intro s hs _
    refine ⟨hs, trivial, fun c hc => absurd hc (List.not_mem_nil c), fun n => ?_⟩
    rw [packChunks_nil]
    simp [sumSizes]
  | cons p ps ih =>
    intro s hs hcs
    obtain ⟨hp2, hp1⟩ := hcs p (List.mem_cons_self p ps)
    have hps : ∀ q ∈ ps, q.2.length = q.1 ∧ q.1 ≤ cap :=
      fun q hq => hcs q (List.mem_cons_of_mem p hq)
    rw [packChunks_cons_fst, packChunks_cons_snd]
    by_cases h : s.bak_total_size + p.1 > cap
    · rw [writeChunkStep_rotates_fst cap hashOf s p h,
        writeChunkStep_rotates_snd cap hashOf s p h]
      have hinv' := rotState_inv cap s p hs hp2 hp1
      obtain ⟨ih1, ih2, ih3, ih4⟩ := ih (rotState s p) hinv' hps
      refine ⟨ih1, Or.inr ⟨h, rfl, rfl, ih2⟩, ?_, ?_⟩
      · intro c hc
        rcases List.mem_cons.1 hc with rfl | hc
        · exact Nat.le_succ _
        · exact Nat.le_of_succ_le (ih3 c hc)
      · intro n
        have hpayn := ih4 n
        have hsn := rotState_baks_len s p hp2 n
        by_cases hn : n = s.bak_n + 1
        · rw [if_pos hn] at hsn
          rw [filter_bak_cons_pos n
              { hash := hashOf p.2, bak_n := s.bak_n + 1, offset := 0, size := p.1 }
              _ hn.symm,
            sumSizes_cons]
          show ((packChunks cap hashOf (rotState s p) ps).1.baks n).length =
            (s.baks n).length + (p.1 + sumSizes _)
          omega
        · rw [if_neg hn] at hsn
          rw [filter_bak_cons_neg n
              { hash := hashOf p.2, bak_n := s.bak_n + 1, offset := 0, size := p.1 }
              _ (fun hh => hn hh.symm)]
          omega
    · rw [writeChunkStep_fits_fst cap hashOf s p h,
        writeChunkStep_fits_snd cap hashOf s p h]
      have hinv' := fitState_inv cap s p hs hp2 h
      obtain ⟨ih1, ih2, ih3, ih4⟩ := ih (fitState s p) hinv' hps
      refine ⟨ih1,
        Or.inl ⟨(by omega : s.bak_total_size + p.1 ≤ cap), rfl, hs.1, ih2⟩, ?_, ?_⟩
      · intro c hc
        rcases List.mem_cons.1 hc with rfl | hc
        · exact le_refl _
        · exact ih3 c hc
      · intro n
        have hpayn := ih4 n
        have hsn := fitState_baks_len s p hp2 n
        by_cases hn : n = s.bak_n
        · rw [if_pos hn] at hsn
          rw [filter_bak_cons_pos n
              { hash := hashOf p.2, bak_n := s.bak_n, offset := s.chunk_offset, size := p.1 }
              _ hn.symm,
            sumSizes_cons]
          show ((packChunks cap hashOf (fitState s p) ps).1.baks n).length =
            (s.baks n).length + (p.1 + sumSizes _)
          omega
        · rw [if_neg hn] at hsn
          rw [filter_bak_cons_neg n
              { hash := hashOf p.2, bak_n := s.bak_n, offset := s.chunk_offset, size := p.1 }
              _ (fun hh => hn hh.symm)]
          omega

theorem packedOk_cons_eq (cap bn off : Nat) (c : ChunkInfo) (rest : List ChunkInfo) :
    packedOk cap bn off (c :: rest) ↔
      (off + c.size ≤ cap ∧ c.bak_n = bn ∧ c.offset = off ∧
        packedOk cap bn (off + c.size) rest)
      ∨ (cap < off + c.size ∧ c.bak_n = bn + 1 ∧ c.offset = 0 ∧
        packedOk cap (bn + 1) c.size rest) := Iff.rfl

theorem packedOk_mono (cap : Nat) :
    ∀ (l : List ChunkInfo) (bn off : Nat),
      packedOk cap bn off l → ∀ c ∈ l, bn ≤ c.bak_n := by
  intro l
  induction l with
  | nil => intro bn off _ c hc; exact absurd hc (List.not_mem_nil c)
  | cons a t ih =>
    intro bn off hp c hc
    rw [packedOk_cons_eq] at hp
    rcases List.mem_cons.1 hc with rfl | hc
    · rcases hp with ⟨_, hb, _, _⟩ | ⟨_, hb, _, _⟩ <;> omega
    · rcases hp with ⟨_, _, _, hrest⟩ | ⟨_, _, _, hrest⟩
      · exact ih bn (off + a.size) hrest c hc
      · exact Nat.le_of_succ_le (ih (bn + 1) a.size hrest c hc)

theorem packedOk_tiles (cap : Nat) :
    ∀ (l : List ChunkInfo) (bn off : Nat),
      packedOk cap bn off l →
      tilesFrom off (l.filter (fun c => c.bak_n == bn)) ∧
      ∀ m, bn < m → tilesFrom 0 (l.filter (fun c => c.bak_n == m)) := by
  intro l
  induction l with
  | nil => intro bn off _; exact ⟨trivial, fun _ _ => trivial⟩
  | cons a t ih =>
    intro bn off hp
    rw [packedOk_cons_eq] at hp
    rcases hp with ⟨hle, hb, hoff, hrest⟩ | ⟨hlt, hb, hoff, hrest⟩
    · obtain ⟨iht1, iht2⟩ := ih bn (off + a.size) hrest
      constructor
      · rw [filter_bak_cons_pos bn a t hb]
        exact ⟨hoff, iht1⟩
      · intro m hm
        rw [filter_bak_cons_neg m a t (by omega)]
        exact iht2 m hm
    · obtain ⟨iht1, iht2⟩ := ih (bn + 1) a.size hrest
      have hmono := packedOk_mono cap t (bn + 1) a.size hrest
      constructor
      · rw [filter_bak_cons_neg bn a t (by omega)]
        have hz : t.filter (fun c => c.bak_n == bn) = [] := by
          rw [List.filter_eq_nil]
          intro c hc
          have := hmono c hc
          simp only [beq_iff_eq]
          omega
        rw [hz]
        exact trivial
      · intro m hm
        by_cases hmm : m = bn + 1
        · subst hmm
          rw [filter_bak_cons_pos (bn + 1) a t hb]
          refine ⟨hoff, ?_⟩
          rw [Nat.zero_add]
          exact iht1
        · rw [filter_bak_cons_neg m a t (by omega)]
          exact iht2 m (by omega)

theorem chunks_ranges_start_bound (S sz : Nat) :
    ∀ r ∈ chunks_ranges S sz, r.start + r.size ≤ sz := by
  intro r hr
  unfold chunks_ranges at hr
  have hdm := Nat.div_add_mod sz S
  rcases List.mem_append.1 hr with h | h
  · rcases List.mem_map.1 h with ⟨i, hi, rfl⟩
    have hi' := List.mem_range.1 hi
    show S * i + S ≤ sz
    have h1 : S * i + S = S * (i + 1) := by ring
    have h2 : S * (i + 1) ≤ S * (sz / S) := Nat.mul_le_mul_left S hi'
    have h3 : S * (sz / S) ≤ sz := by
      rw [Nat.mul_comm]
      exact Nat.div_mul_le_self sz S
    omega
  · by_cases hm : sz % S = 0
    · rw [if_neg (by simp [hm])] at h
      exact absurd h (List.not_mem_nil r)
    · rw [if_pos hm, List.mem_singleton] at h
      subst h
      show S * (sz / S) + sz % S ≤ sz
      omega

theorem sliceBytes_length (content : List Nat) (r : Range)
    (h : r.start + r.size ≤ content.length) :
    (sliceBytes content r).length = r.size := by
  unfold sliceBytes
  rw [List.length_take, List.length_drop]
  omega

theorem fileChunks_mem_spec (S : Nat) (hS : 0 < S) (content : List Nat) :
    ∀ p ∈ fileChunks S content, p.2.length = p.1 ∧ p.1 ≤ S := by
  intro p hp
  unfold fileChunks at hp
  rcases List.mem_map.1 hp with ⟨r, hr, rfl⟩
  obtain ⟨_, hle⟩ := chunks_ranges_mem_size S content.length hS r hr
  exact ⟨sliceBytes_length content r (chunks_ranges_start_bound S content.length r hr), hle⟩

/-! ## Fusing the per-file loop into the flat chunk stream -/

theorem packChunks_append_fst (cap : Nat) (hashOf : List Nat → Nat) :
    ∀ (xs ys : List (Nat × List Nat)) (s : PackState),
      (packChunks cap hashOf s (xs ++ ys)).1 =
        (packChunks cap hashOf (packChunks cap hashOf s xs).1 ys).1 := by
  intro xs
  induction xs with
  | nil => intro ys s; rw [List.nil_append, packChunks_nil]
  | cons x xs ih =>
    intro ys s
    rw [List.cons_append, packChunks_cons_fst, ih, packChunks_cons_fst]

theorem packChunks_append_snd (cap : Nat) (hashOf : List Nat → Nat) :
    ∀ (xs ys : List (Nat × List Nat)) (s : PackState),
      (packChunks cap hashOf s (xs ++ ys)).2 =
        (packChunks cap hashOf s xs).2 ++
          (packChunks cap hashOf (packChunks cap hashOf s xs).1 ys).2 := by
  intro xs
  induction xs with
  | nil => intro ys s; rw [List.nil_append, packChunks_nil]; rfl
  | cons x xs ih =>
    intro ys s
    rw [List.cons_append, packChunks_cons_snd, ih, packChunks_cons_snd,
      packChunks_cons_fst, List.cons_append]

theorem packChunks_sizes (cap : Nat) (hashOf : List Nat → Nat) :
    ∀ (cs : List (Nat × List Nat)) (s : PackState),
      (packChunks cap hashOf s cs).2.map (·.size) = cs.map (·.1) := by
  intro cs
  induction cs with
  | nil => intro s; rfl
  | cons p ps ih =>
    intro s
    rw [packChunks_cons_snd, List.map_cons, ih, List.map_cons]
    rfl

theorem packFiles_flat_splits (S cap : Nat) (hashOf : List Nat → Nat) :
    ∀ (files : List (Nat × FileEntry)) (s : PackState),
      (packFiles S cap hashOf s files).1.flatMap (fun sp => sp.chunks) =
        (packChunks cap hashOf s
          (files.flatMap (fun hf => fileChunks S hf.2.content))).2 := by
  intro files
  induction files with
  | nil => intro s; rfl
  | cons hf rest ih =>
    intro s
    show ({ file_hash := hf.1,
            chunks := (packChunks cap hashOf s (fileChunks S hf.2.content)).2 } ::
          (packFiles S cap hashOf
            (packChunks cap hashOf s (fileChunks S hf.2.content)).1 rest).1).flatMap
          (fun sp => sp.chunks) = _
    rw [List.flatMap_cons, List.flatMap_cons, packChunks_append_snd, ih]

theorem packFiles_flat_state (S cap : Nat) (hashOf : List Nat → Nat) :
    ∀ (files : List (Nat × FileEntry)) (s : PackState),
      (packFiles S cap hashOf s files).2 =
        (packChunks cap hashOf s
          (files.flatMap (fun hf => fileChunks S hf.2.content))).1 := by
  intro files
  induction files with
  | nil => intro s; rfl
  | cons hf rest ih =>
    intro s
    show (packFiles S cap hashOf
        (packChunks cap hashOf s (fileChunks S hf.2.content)).1 rest).2 = _
    rw [List.flatMap_cons, packChunks_append_fst, ih]

theorem write_bak_files_foldl (S cap : Nat) (hashOf : List Nat → Nat) :
    ∀ (files : List (Nat × FileEntry)) (acc : List SplitInfo × PackState),
      files.foldl
        (fun acc hf =>
          let res := packChunks cap hashOf acc.2 (fileChunks S hf.2.content)
          (acc.1 ++ [{ file_hash := hf.1, chunks := res.2 }], res.1)) acc =
      (acc.1 ++ (packFiles S cap hashOf acc.2 files).1,
        (packFiles S cap hashOf acc.2 files).2) := by
  intro files
  induction files with
  | nil =>
    intro acc
    simp [packFiles]
  | cons hf rest ih =>
    intro acc
    rw [List.foldl_cons, ih]
    simp only [packFiles, List.append_assoc, List.singleton_append]

theorem write_bak_files_eq_packFiles (S cap : Nat) (hashOf : List Nat → Nat)
    (files : List (Nat × FileEntry)) :
    write_bak_files S cap hashOf files = packFiles S cap hashOf initPackState files := by
  unfold write_bak_files
  rw [write_bak_files_foldl S cap hashOf files ([], initPackState), List.nil_append]

/-- Claim C2: in every run of `write_bak_files`, the placements recorded
with bak index `n` tile the interval from 0 to that bak's payload size
contiguously in write order (no gaps, no overlaps), no bak payload exceeds
the cap, and the rotation discipline holds: a chunk either fits at the
current end of the current bak or, when it would push past the cap, is
placed whole at offset 0 of the next bak. -/
theorem claim_c2_bak_tiling (S cap : Nat) (hashOf : List Nat → Nat)
    (files : List (Nat × FileEntry)) (hS : 0 < S) (hcap : S ≤ cap) :
    packedOk cap 0 0 ((write_bak_files S cap hashOf files).1.flatMap
      (fun sp => sp.chunks)) ∧
    (∀ n, tilesFrom 0 (((write_bak_files S cap hashOf files).1.flatMap
        (fun sp => sp.chunks)).filter (fun c => c.bak_n == n))) ∧
    (∀ n, ((write_bak_files S cap hashOf files).2.baks n).length =
      sumSizes (((write_bak_files S cap hashOf files).1.flatMap
        (fun sp => sp.chunks)).filter (fun c => c.bak_n == n))) ∧
    (∀ n, ((write_bak_files S cap hashOf files).2.baks n).length ≤ cap) := by
  have hcs : ∀ p ∈ files.flatMap (fun hf => fileChunks S hf.2.content),
      p.2.length = p.1 ∧ p.1 ≤ cap := by
    intro p hp
    rcases List.mem_flatMap.1 hp with ⟨hf, _, hpf⟩
    obtain ⟨h1, h2⟩ := fileChunks_mem_spec S hS hf.2.content p hpf
    exact ⟨h1, le_trans h2 hcap⟩
  obtain ⟨hinv, hpo, hmono, hpay⟩ :=
    packChunks_master cap hashOf (files.flatMap (fun hf => fileChunks S hf.2.content))
      initPackState (initPackInv cap) hcs
  have hflat : (write_bak_files S cap hashOf files).1.flatMap (fun sp => sp.chunks) =
      (packChunks cap hashOf initPackState
        (files.flatMap (fun hf => fileChunks S hf.2.content))).2 := by
    rw [write_bak_files_eq_packFiles, packFiles_flat_splits]
  have hstate : (write_bak_files S cap hashOf files).2 =
      (packChunks cap hashOf initPackState
        (files.flatMap (fun hf => fileChunks S hf.2.content))).1 := by
    rw [write_bak_files_eq_packFiles, packFiles_flat_state]
  refine ⟨?_, ?_, ?_, ?_⟩
  · rw [hflat]
    exact hpo
  · intro n
    rw [hflat]
    obtain ⟨ht0, htm⟩ := packedOk_tiles cap _ _ _ hpo
    by_cases hn : n = 0
    · subst hn
      exact ht0
    · exact htm n (Nat.pos_of_ne_zero hn)
  · intro n
    rw [hflat, hstate]
    simpa [initPackState] using hpay n
  · intro n
    rw [hstate]
    exact hinv.2.2.2.2 n

/-- Witness for claim C2 at the S1 configuration. -/
theorem claim_c2_witness :
    0 < 4 ∧ 4 ≤ 10 ∧
      packedOk 10 0 0 ((write_bak_files 4 10 (fun c => c.length)
        [(1, { path := [97], mtime := 0, content := [104,101,108,108,111] })]).1.flatMap
          (fun sp => sp.chunks)) :=
  ⟨by decide, by decide,
    (claim_c2_bak_tiling 4 10 (fun c => c.length)
      [(1, { path := [97], mtime := 0, content := [104,101,108,108,111] })]
      (by decide) (by decide)).1⟩

/-! ## The two deduplication tiers in closed form -/

theorem tier1Split_go (old : List IndexRow) :
    ∀ (files : List (Nat × FileEntry))
      (acc : List ((Nat × FileEntry) × Nat) × List (Nat × FileEntry)),
      files.foldl
        (fun acc e =>
          match metadataLookup old e.2 with
          | some r => (acc.1 ++ [(e, r.hash)], acc.2)
          | none => (acc.1, acc.2 ++ [e])) acc =
      (acc.1 ++ files.filterMap
          (fun e => (metadataLookup old e.2).map (fun r => (e, r.hash))),
        acc.2 ++ files.filter (fun e => (metadataLookup old e.2).isNone)) := by
  intro files
  induction files with
  | nil =>
    intro acc
    simp
  | cons e rest ih =>
    intro acc
    rw [List.foldl_cons]
    cases h : metadataLookup old e.2 with
    | none =>
      simp only [h]
      rw [ih]
      rw [List.filterMap_cons, List.filter_cons]
      simp [h, List.append_assoc]
    | some r =>
      simp only [h]
      rw [ih]
      rw [List.filterMap_cons, List.filter_cons]
      simp [h, List.append_assoc]

theorem tier1Split_fst (old : List IndexRow) (files : List (Nat × FileEntry)) :
    (tier1Split old files).1 =
      files.filterMap (fun e => (metadataLookup old e.2).map (fun r => (e, r.hash))) := by
  unfold tier1Split
  rw [tier1Split_go old files ([], [])]
  rw [List.nil_append]

theorem tier1Split_snd (old : List IndexRow) (files : List (Nat × FileEntry)) :
    (tier1Split old files).2 =
      files.filter (fun e => (metadataLookup old e.2).isNone) := by
  unfold tier1Split
  rw [tier1Split_go old files ([], [])]
  exact List.nil_append _

theorem tier2Split_go (hashOf : List Nat → Nat) (hs : List Nat) :
    ∀ (rem : List (Nat × FileEntry))
      (acc : List (Nat × (Nat × FileEntry)) × List ((Nat × FileEntry) × Nat)),
      rem.foldl
        (fun acc e =>
          let h := hashOf e.2.content
          if h ∈ hs then (acc.1, acc.2 ++ [(e, h)])
          else (acc.1 ++ [(h, e)], acc.2)) acc =
      (acc.1 ++ rem.filterMap (fun e =>
          if hashOf e.2.content ∈ hs then none else some (hashOf e.2.content, e)),
        acc.2 ++ rem.filterMap (fun e =>
          if hashOf e.2.content ∈ hs then some (e, hashOf e.2.content) else none)) := by
  intro rem
  induction rem with
  | nil =>
    intro acc
    simp
  | cons e rest ih =>
    intro acc
    rw [List.foldl_cons]
    by_cases h : hashOf e.2.content ∈ hs
    · simp only [if_pos h]
      rw [ih]
      rw [List.filterMap_cons, List.filterMap_cons]
      simp [if_pos h, List.append_assoc]
    · simp only [if_neg h]
      rw [ih]
      rw [List.filterMap_cons, List.filterMap_cons]
      simp [if_neg h, List.append_assoc]

theorem tier2Split_fst (hashOf : List Nat → Nat) (hs : List Nat)
    (rem : List (Nat × FileEntry)) :
    (tier2Split hashOf hs rem).1 =
      rem.filterMap (fun e =>
        if hashOf e.2.content ∈ hs then none else some (hashOf e.2.content, e)) := by
  unfold tier2Split
  rw [tier2Split_go hashOf hs rem ([], [])]
  rw [List.nil_append]

theorem tier2Split_snd (hashOf : List Nat → Nat) (hs : List Nat)
    (rem : List (Nat × FileEntry)) :
    (tier2Split hashOf hs rem).2 =
      rem.filterMap (fun e =>
        if hashOf e.2.content ∈ hs then some (e, hashOf e.2.content) else none) := by
  unfold tier2Split
  rw [tier2Split_go hashOf hs rem ([], [])]
  exact List.nil_append _

theorem tier1_count (old : List IndexRow) (files : List (Nat × FileEntry)) :
    (tier1Split old files).1.length + (tier1Split old files).2.length = files.length := by
  rw [tier1Split_fst, tier1Split_snd]
  induction files with
  | nil => rfl
  | cons e rest ih =>
    rw [List.filterMap_cons, List.filter_cons]
    cases h : metadataLookup old e.2 <;> simp [h] <;> omega

theorem tier2_count (hashOf : List Nat → Nat) (hs : List Nat)
    (rem : List (Nat × FileEntry)) :
    (tier2Split hashOf hs rem).1.length + (tier2Split hashOf hs rem).2.length =
      rem.length := by
  rw [tier2Split_fst, tier2Split_snd]
  induction rem with
  | nil => rfl
  | cons e rest ih =>
    rw [List.filterMap_cons, List.filterMap_cons]
    by_cases h : hashOf e.2.content ∈ hs <;> simp [h] <;> omega

/-! ## Index-row correlation via scan indices (the pointer-identity map) -/

theorem keys_nodup_inj {α β : Type} (key : α → β) :
    ∀ (l : List α), (l.map key).Nodup →
      ∀ a ∈ l, ∀ b ∈ l, key a = key b → a = b := by
  intro l
  induction l with
  | nil => intro _ a ha; exact absurd ha (List.not_mem_nil a)
  | cons c t ih =>
    intro hnd a ha b hb hab
    rw [List.map_cons, List.nodup_cons] at hnd
    obtain ⟨hc, hnd'⟩ := hnd
    rcases List.mem_cons.1 ha with rfl | ha'
    · rcases List.mem_cons.1 hb with rfl | hb'
      · rfl
      · have hbm : key b ∈ t.map key := List.mem_map_of_mem key hb'
        rw [← hab] at hbm
        exact absurd hbm hc
    · rcases List.mem_cons.1 hb with rfl | hb'
      · have ham : key a ∈ t.map key := List.mem_map_of_mem key ha'
        rw [hab] at ham
        exact absurd ham hc
      · exact ih hnd' a ha' b hb' hab

/-- Removal of one occurrence of an element, used to model consuming a
hash-map entry once it has been matched. -/
def removeOne {α : Type} [DecidableEq α] (a : α) : List α → List α
  | [] => []
  | b :: t => if b = a then t else b :: removeOne a t

theorem removeOne_sublist {α : Type} [DecidableEq α] (a : α) :
    ∀ l : List α, (removeOne a l).Sublist l := by
  intro l
  induction l with
  | nil => exact List.Sublist.refl _
  | cons b t ih =>
    show (if b = a then t else b :: removeOne a t).Sublist (b :: t)
    by_cases h : b = a
    · rw [if_pos h]
      exact List.Sublist.cons b (List.Sublist.refl t)
    · rw [if_neg h]
      exact List.Sublist.cons₂ b ih

theorem mem_removeOne {α : Type} [DecidableEq α] (a x : α) :
    ∀ l : List α, l.Nodup → (x ∈ removeOne a l ↔ x ∈ l ∧ x ≠ a) := by
  intro l
  induction l with
  | nil => intro _; simp [removeOne]
  | cons b t ih =>
    intro hnd
    rw [List.nodup_cons] at hnd
    obtain ⟨hb, hnd'⟩ := hnd
    show x ∈ (if b = a then t else b :: removeOne a t) ↔ _
    by_cases h : b = a
    · subst h
      rw [if_pos rfl]
      constructor
      · intro hx
        exact ⟨List.mem_cons_of_mem b hx, fun hxa => hb (hxa ▸ hx)⟩
      · intro ⟨hx, hxa⟩
        rcases List.mem_cons.1 hx with rfl | hx'
        · exact absurd rfl hxa
        · exact hx'
    · rw [if_neg h]
      constructor
      · intro hx
        rcases List.mem_cons.1 hx with rfl | hx'
        · exact ⟨List.mem_cons_self x t, fun hxa => h hxa⟩
        · obtain ⟨h1, h2⟩ := (ih hnd').1 hx'
          exact ⟨List.mem_cons_of_mem b h1, h2⟩
      · intro ⟨hx, hxa⟩
        rcases List.mem_cons.1 hx with rfl | hx'
        · exact List.mem_cons_self x _
        · exact List.mem_cons_of_mem b ((ih hnd').2 ⟨hx', hxa⟩)

theorem perm_cons_removeOne {α : Type} [DecidableEq α] (a : α) :
    ∀ l : List α, a ∈ l → l.Perm (a :: removeOne a l) := by
  intro l
  induction l with
  | nil => intro h; exact absurd h (List.not_mem_nil a)
  | cons b t ih =>
    intro hm
    show (b :: t).Perm (a :: (if b = a then t else b :: removeOne a t))
    by_cases h : b = a
    · subst h
      rw [if_pos rfl]
    · rw [if_neg h]
      have hat : a ∈ t := by
        rcases List.mem_cons.1 hm with rfl | hm'
        · exact absurd rfl h
        · exact hm'
      exact ((ih hat).cons b).trans (List.Perm.swap a b _)

theorem find?_removeOne_of_false {α : Type} [DecidableEq α]
    (p : α → Bool) (a : α) (hpa : ¬p a = true) :
    ∀ l : List α, (removeOne a l).find? p = l.find? p := by
  intro l
  induction l with
  | nil => rfl
  | cons b t ih =>
    show (if b = a then t else b :: removeOne a t).find? p = _
    by_cases hba : b = a
    · subst hba
      rw [if_pos rfl]
      rw [List.find?_cons_of_neg t hpa]
    · rw [if_neg hba]
      by_cases hpb : p b = true
      · rw [List.find?_cons_of_pos (removeOne a t) hpb, List.find?_cons_of_pos t hpb]
      · rw [List.find?_cons_of_neg (removeOne a t) hpb, List.find?_cons_of_neg t hpb]
        exact ih

theorem find_rows_perm :
    ∀ (filesIdx : List (Nat × FileEntry)) (ftb : List (Nat × (Nat × FileEntry))),
      (filesIdx.map Prod.fst).Nodup →
      ((ftb.map (fun x => x.2.1)).Nodup) →
      (∀ x ∈ ftb, x.2 ∈ filesIdx) →
      (filesIdx.filterMap (fun ie => (ftb.find? (fun x => x.2.1 == ie.1)).map
          (fun x => rowOf x.2.2 x.1))).Perm
        (ftb.map (fun x => rowOf x.2.2 x.1)) := by
  intro filesIdx
  induction filesIdx with
  | nil =>
    intro ftb _ _ hsub
    cases ftb with
    | nil => exact List.Perm.refl _
    | cons x t => exact absurd (hsub x (List.mem_cons_self x t)) (List.not_mem_nil x.2)
  | cons ie rest ih =>
    intro ftb hknd hfnd hsub
    rw [List.map_cons, List.nodup_cons] at hknd
    obtain ⟨hie, hknd'⟩ := hknd
    rw [List.filterMap_cons]
    cases hf : ftb.find? (fun x => x.2.1 == ie.1) with
    | none =>
      have hnone := List.find?_eq_none.1 hf
      have hsub' : ∀ x ∈ ftb, x.2 ∈ rest := by
        intro x hx
        rcases List.mem_cons.1 (hsub x hx) with hxe | hxr
        · exfalso
          apply hnone x hx
          rw [hxe]
          exact beq_self_eq_true ie.1
        · exact hxr
      exact ih ftb hknd' hfnd hsub'
    | some x0 =>
      have hx0m : x0 ∈ ftb := List.mem_of_find?_eq_some hf
      have hx0k : x0.2.1 = ie.1 := by simpa using List.find?_some hf
      have hftbnd : ftb.Nodup := List.Nodup.of_map _ hfnd
      have htail : rest.filterMap (fun ie2 => (ftb.find? (fun x => x.2.1 == ie2.1)).map
          (fun x => rowOf x.2.2 x.1)) =
          rest.filterMap (fun ie2 => ((removeOne x0 ftb).find?
            (fun x => x.2.1 == ie2.1)).map (fun x => rowOf x.2.2 x.1)) := by
        apply List.filterMap_congr
        intro ie2 hie2
        have hkey : ie2.1 ≠ ie.1 := by
          intro hk
          apply hie
          rw [← hk]
          exact List.mem_map_of_mem Prod.fst hie2
        have hfalse : ¬((fun x : Nat × (Nat × FileEntry) => x.2.1 == ie2.1) x0) = true := by
          show ¬(x0.2.1 == ie2.1) = true
          rw [hx0k, beq_iff_eq]
          exact fun hh => hkey hh.symm
        rw [find?_removeOne_of_false (fun x : Nat × (Nat × FileEntry) => x.2.1 == ie2.1)
          x0 hfalse ftb]
      have herased : ∀ x ∈ removeOne x0 ftb, x.2 ∈ rest := by
        intro x hx
        obtain ⟨hxf, hxne⟩ := (mem_removeOne x0 x ftb hftbnd).1 hx
        rcases List.mem_cons.1 (hsub x hxf) with hxe | hxr
        · exfalso
          apply hxne
          apply keys_nodup_inj (fun y : Nat × (Nat × FileEntry) => y.2.1) ftb hfnd x hxf
            x0 hx0m
          rw [hxe, hx0k]
        · exact hxr
      have hkndE : ((removeOne x0 ftb).map (fun x => x.2.1)).Nodup :=
        ((removeOne_sublist x0 ftb).map _).nodup hfnd
      have hrec := ih (removeOne x0 ftb) hknd' hkndE herased
      rw [htail]
      have hfinal : (ftb.map (fun x => rowOf x.2.2 x.1)).Perm
          (rowOf x0.2.2 x0.1 :: (removeOne x0 ftb).map (fun x => rowOf x.2.2 x.1)) :=
        (perm_cons_removeOne x0 ftb hx0m).map _
      exact ((hrec.cons (rowOf x0.2.2 x0.1)).trans hfinal.symm)

theorem packFiles_hashes (S cap : Nat) (hashOf : List Nat → Nat) :
    ∀ (files : List (Nat × FileEntry)) (s : PackState),
      (packFiles S cap hashOf s files).1.map (fun sp => sp.file_hash) =
        files.map (fun hf => hf.1) := by
  intro files
  induction files with
  | nil => intro s; rfl
  | cons hf rest ih =>
    intro s
    simp only [packFiles, List.map_cons]
    rw [ih]

theorem packFiles_len (S cap : Nat) (hashOf : List Nat → Nat)
    (files : List (Nat × FileEntry)) (s : PackState) :
    (packFiles S cap hashOf s files).1.length = files.length := by
  have h := congrArg List.length (packFiles_hashes S cap hashOf files s)
  rw [List.length_map, List.length_map] at h
  exact h

theorem insert_file_split_info_len (splits : List SplitInfo) :
    (insert_file_split_info splits).length =
      (splits.map (fun sp => sp.chunks.length)).sum := by
  unfold insert_file_split_info
  rw [List.length_flatMap]
  congr 1
  apply List.map_congr_left
  intro sp _
  simp [List.length_map]

/-! ## Differential-mode characterization -/

theorem differential_indexRows (S cap : Nat) (hashOf : List Nat → Nat)
    (old : List IndexRow) (files : List FileEntry) :
    (differential_backup S cap hashOf old files).indexRows =
      ((scanIdx files).filterMap (fun ie =>
        ((diffFilesToBackup old hashOf files).find? (fun x => x.2.1 == ie.1)).map
          (fun x => rowOf x.2.2 x.1)))
      ++ (diffDuplicates old hashOf files).map (fun d => rowOf d.1.2 d.2) := rfl

theorem differential_splits (S cap : Nat) (hashOf : List Nat → Nat)
    (old : List IndexRow) (files : List FileEntry) :
    (differential_backup S cap hashOf old files).splits =
      (write_bak_files S cap hashOf
        ((diffFilesToBackup old hashOf files).map (fun x => (x.1, x.2.2)))).1 := rfl

theorem scanIdx_keys_nodup (files : List FileEntry) :
    ((scanIdx files).map Prod.fst).Nodup := by
  unfold scanIdx
  rw [List.enum_map_fst]
  exact List.nodup_range _

theorem diffToBackup_mem (old : List IndexRow) (hashOf : List Nat → Nat)
    (files : List FileEntry) :
    ∀ x ∈ diffToBackup old hashOf files,
      x.2 ∈ scanIdx files ∧ metadataLookup old x.2.2 = none ∧
      hashOf x.2.2.content ∉ refHashes old ∧ x.1 = hashOf x.2.2.content := by
  intro x hx
  unfold diffToBackup at hx
  rw [tier2Split_fst] at hx
  rcases List.mem_filterMap.1 hx with ⟨a, ha, hfa⟩
  unfold diffRemaining at ha
  rw [tier1Split_snd] at ha
  obtain ⟨hmem, hcond⟩ := List.mem_filter.1 ha
  by_cases h : hashOf a.2.content ∈ refHashes old
  · rw [if_pos h] at hfa
    exact Option.noConfusion hfa
  · rw [if_neg h] at hfa
    injection hfa with h2
    subst h2
    refine ⟨hmem, ?_, h, rfl⟩
    simpa [Option.isNone_iff_eq_none] using hcond

theorem diffRemaining_sublist (old : List IndexRow) (files : List FileEntry) :
    (diffRemaining old files).Sublist (scanIdx files) := by
  unfold diffRemaining
  rw [tier1Split_snd]
  exact List.filter_sublist _

theorem filterMap_if_snd_sublist (hashOf : List Nat → Nat) (hs : List Nat) :
    ∀ rem : List (Nat × FileEntry),
      ((rem.filterMap (fun e => if hashOf e.2.content ∈ hs then none
        else some (hashOf e.2.content, e))).map (fun x => x.2)).Sublist rem := by
  intro rem
  induction rem with
  | nil => exact List.Sublist.refl _
  | cons e rest ih =>
    by_cases h : hashOf e.2.content ∈ hs
    · simp only [List.filterMap_cons, if_pos h]
      exact List.Sublist.cons e ih
    · simp only [List.filterMap_cons, if_neg h, List.map_cons]
      exact List.Sublist.cons₂ e ih

theorem diffToBackup_snd_sublist (old : List IndexRow) (hashOf : List Nat → Nat)
    (files : List FileEntry) :
    ((diffToBackup old hashOf files).map (fun x => x.2)).Sublist (scanIdx files) := by
  unfold diffToBackup
  rw [tier2Split_fst]
  exact (filterMap_if_snd_sublist hashOf (refHashes old) (diffRemaining old files)).trans
    (diffRemaining_sublist old files)

theorem diffToBackup_keys_nodup (old : List IndexRow) (hashOf : List Nat → Nat)
    (files : List FileEntry) :
    ((diffToBackup old hashOf files).map (fun x => x.2.1)).Nodup := by
  have h1 : (diffToBackup old hashOf files).map (fun x => x.2.1) =
      ((diffToBackup old hashOf files).map (fun x => x.2)).map Prod.fst := by
    rw [List.map_map]
    rfl
  rw [h1]
  exact ((diffToBackup_snd_sublist old hashOf files).map Prod.fst).nodup
    (scanIdx_keys_nodup files)

theorem diffFilesToBackup_perm (old : List IndexRow) (hashOf : List Nat → Nat)
    (files : List FileEntry) :
    (diffFilesToBackup old hashOf files).Perm (diffToBackup old hashOf files) := by
  unfold diffFilesToBackup sortByPath
  exact List.mergeSort_perm _ _

theorem diffFilesToBackup_keys_nodup (old : List IndexRow) (hashOf : List Nat → Nat)
    (files : List FileEntry) :
    ((diffFilesToBackup old hashOf files).map (fun x => x.2.1)).Nodup :=
  (((diffFilesToBackup_perm old hashOf files).map _).symm).nodup
    (diffToBackup_keys_nodup old hashOf files)

theorem diffFilesToBackup_mem_scanIdx (old : List IndexRow) (hashOf : List Nat → Nat)
    (files : List FileEntry) :
    ∀ x ∈ diffFilesToBackup old hashOf files, x.2 ∈ scanIdx files := by
  intro x hx
  have hx' := (diffFilesToBackup_perm old hashOf files).mem_iff.1 hx
  exact (diffToBackup_mem old hashOf files x hx').1

theorem diffDuplicates_mem_t1 (old : List IndexRow) (hashOf : List Nat → Nat)
    (files : List FileEntry) (i : Nat) (e : FileEntry) (r : IndexRow)
    (hie : (i, e) ∈ scanIdx files) (h : metadataLookup old e = some r) :
    (((i, e), r.hash) : (Nat × FileEntry) × Nat) ∈ diffDuplicates old hashOf files := by
  unfold diffDuplicates
  apply List.mem_append_left
  rw [tier1Split_fst]
  apply List.mem_filterMap.2
  refine ⟨(i, e), hie, ?_⟩
  rw [h]
  rfl

theorem diffRemaining_mem_intro (old : List IndexRow) (files : List FileEntry)
    (i : Nat) (e : FileEntry) (hie : (i, e) ∈ scanIdx files)
    (h : metadataLookup old e = none) : (i, e) ∈ diffRemaining old files := by
  unfold diffRemaining
  rw [tier1Split_snd]
  apply List.mem_filter.2
  refine ⟨hie, ?_⟩
  show (metadataLookup old e).isNone = true
  rw [h]
  rfl

theorem diffDuplicates_mem_t2 (old : List IndexRow) (hashOf : List Nat → Nat)
    (files : List FileEntry) (i : Nat) (e : FileEntry)
    (hie : (i, e) ∈ scanIdx files) (h1 : metadataLookup old e = none)
    (h2 : hashOf e.content ∈ refHashes old) :
    (((i, e), hashOf e.content) : (Nat × FileEntry) × Nat) ∈
      diffDuplicates old hashOf files := by
  unfold diffDuplicates
  apply List.mem_append_right
  rw [tier2Split_snd]
  apply List.mem_filterMap.2
  refine ⟨(i, e), diffRemaining_mem_intro old files i e hie h1, ?_⟩
  rw [if_pos h2]

theorem diffToBackup_mem_intro (old : List IndexRow) (hashOf : List Nat → Nat)
    (files : List FileEntry) (i : Nat) (e : FileEntry)
    (hie : (i, e) ∈ scanIdx files) (h1 : metadataLookup old e = none)
    (h2 : hashOf e.content ∉ refHashes old) :
    ((hashOf e.content, (i, e)) : Nat × (Nat × FileEntry)) ∈
      diffToBackup old hashOf files := by
  unfold diffToBackup
  rw [tier2Split_fst]
  apply List.mem_filterMap.2
  refine ⟨(i, e), diffRemaining_mem_intro old files i e hie h1, ?_⟩
  rw [if_neg h2]

theorem diffToBackup_not_idx (old : List IndexRow) (hashOf : List Nat → Nat)
    (files : List FileEntry) (i : Nat) (e : FileEntry)
    (hie : (i, e) ∈ scanIdx files)
    (h : ¬(metadataLookup old e = none ∧ hashOf e.content ∉ refHashes old)) :
    ∀ x ∈ diffToBackup old hashOf files, x.2.1 ≠ i := by
  intro x hx hxi
  obtain ⟨hxm, hxnone, hxref, _⟩ := diffToBackup_mem old hashOf files x hx
  have hxe : x.2 = (i, e) :=
    keys_nodup_inj Prod.fst (scanIdx files) (scanIdx_keys_nodup files) x.2 hxm
      (i, e) hie hxi
  rw [hxe] at hxnone hxref
  exact h ⟨hxnone, hxref⟩

/-- Claim C4: in differential mode a file matching a reference row by
(path, mtime, size) is recorded as a copied duplicate with the reference
row's hash, independently of any content hash (the statement holds for
every hash function, so the content is never read); otherwise its hash is
computed, and the file is a copied duplicate with that hash when it occurs
in the reference hash set and to-write otherwise.  A copied file is never
handed to the chunk engine, whose splits correspond exactly to the sorted
to-write list, so a renamed unchanged file yields zero new chunk rows. -/
theorem claim_c4_differential_dedup (S cap : Nat) (hashOf : List Nat → Nat)
    (old : List IndexRow) (files : List FileEntry) (i : Nat) (e : FileEntry)
    (hie : (i, e) ∈ scanIdx files) :
    (∀ r, metadataLookup old e = some r →
      ((((i, e), r.hash) : (Nat × FileEntry) × Nat) ∈ diffDuplicates old hashOf files ∧
        ∀ x ∈ diffToBackup old hashOf files, x.2.1 ≠ i)) ∧
    (metadataLookup old e = none → hashOf e.content ∈ refHashes old →
      ((((i, e), hashOf e.content) : (Nat × FileEntry) × Nat) ∈
          diffDuplicates old hashOf files ∧
        ∀ x ∈ diffToBackup old hashOf files, x.2.1 ≠ i)) ∧
    (metadataLookup old e = none → hashOf e.content ∉ refHashes old →
      ((hashOf e.content, (i, e)) : Nat × (Nat × FileEntry)) ∈
        diffToBackup old hashOf files) ∧
    ((differential_backup S cap hashOf old files).splits.map (fun sp => sp.file_hash) =
      (diffFilesToBackup old hashOf files).map (fun x => x.1)) := by
  refine ⟨?_, ?_, ?_, ?_⟩
  · intro r h
    refine ⟨diffDuplicates_mem_t1 old hashOf files i e r hie h, ?_⟩
    apply diffToBackup_not_idx old hashOf files i e hie
    intro hcon
    rw [h] at hcon
    exact Option.noConfusion hcon.1
  · intro h1 h2
    refine ⟨diffDuplicates_mem_t2 old hashOf files i e hie h1 h2, ?_⟩
    apply diffToBackup_not_idx old hashOf files i e hie
    intro hcon
    exact hcon.2 h2
  · exact diffToBackup_mem_intro old hashOf files i e hie
  · rw [differential_splits, write_bak_files_eq_packFiles, packFiles_hashes,
      List.map_map]
    rfl

/-- Witness for claim C4: the S4 rename scenario (tier-1 miss, tier-2
hit) produces a copied duplicate and nothing for the chunk engine. -/
theorem claim_c4_witness :
    (((0, ({ path := [98], mtime := 5, content := [1, 2] } : FileEntry))) ∈
      scanIdx [{ path := [98], mtime := 5, content := [1, 2] }]) ∧
    ((((0, ({ path := [98], mtime := 5, content := [1, 2] } : FileEntry)), 42) ∈
      diffDuplicates [{ path := [97], size := 2, mtime := 5, hash := 42 }]
        (fun _ => 42) [{ path := [98], mtime := 5, content := [1, 2] }]) ∧
      ∀ x ∈ diffToBackup [{ path := [97], size := 2, mtime := 5, hash := 42 }]
        (fun _ => 42) [{ path := [98], mtime := 5, content := [1, 2] }], x.2.1 ≠ 0) :=
  ⟨by decide,
    (claim_c4_differential_dedup 4 10 (fun _ => 42)
      [{ path := [97], size := 2, mtime := 5, hash := 42 }]
      [{ path := [98], mtime := 5, content := [1, 2] }] 0
      { path := [98], mtime := 5, content := [1, 2] }
      (by decide)).2.1 (by decide) (by decide)⟩

/-- Claim C7: the consistency assertions of `differential_backup` hold on
every run of the model: copied plus to-write counts equal the scan count,
the committed index rows number exactly the scanned files, and the chunk
rows number exactly the chunks recorded by the engine. -/
theorem claim_c7_commit_assertions (S cap : Nat) (hashOf : List Nat → Nat)
    (old : List IndexRow) (files : List FileEntry)
    (hpaths : (files.map (fun e => e.path)).Nodup) :
    (diffDuplicates old hashOf files).length + (diffToBackup old hashOf files).length =
      files.length ∧
    (differential_backup S cap hashOf old files).indexRows.length = files.length ∧
    (insert_file_split_info (differential_backup S cap hashOf old files).splits).length =
      ((differential_backup S cap hashOf old files).splits.map
        (fun sp => sp.chunks.length)).sum := by
  have hc1 : (diffDuplicates old hashOf files).length +
      (diffToBackup old hashOf files).length = files.length := by
    have h1 := tier1_count old (scanIdx files)
    have h2 := tier2_count hashOf (refHashes old) ((tier1Split old (scanIdx files)).2)
    have h3 : (scanIdx files).length = files.length := List.enum_length
    show ((tier1Split old (scanIdx files)).1 ++
        (tier2Split hashOf (refHashes old) ((tier1Split old (scanIdx files)).2)).2).length +
      (tier2Split hashOf (refHashes old) ((tier1Split old (scanIdx files)).2)).1.length =
      files.length
    rw [List.length_append]
    omega
  refine ⟨hc1, ?_, insert_file_split_info_len _⟩
  rw [differential_indexRows, List.length_append, List.length_map]
  have hperm := find_rows_perm (scanIdx files) (diffFilesToBackup old hashOf files)
    (scanIdx_keys_nodup files) (diffFilesToBackup_keys_nodup old hashOf files)
    (diffFilesToBackup_mem_scanIdx old hashOf files)
  have hlen1 := hperm.length_eq
  rw [List.length_map] at hlen1
  have hlen2 := (diffFilesToBackup_perm old hashOf files).length_eq
  omega

/-- Witness for claim C7 on a one-file differential run with an empty
reference index. -/
theorem claim_c7_witness :
    (([({ path := [97], mtime := 0, content := [1] } : FileEntry)].map
        (fun e => e.path)).Nodup) ∧
    (differential_backup 4 10 (fun c => c.length) []
      [{ path := [97], mtime := 0, content := [1] }]).indexRows.length = 1 :=
  ⟨by decide,
    (claim_c7_commit_assertions 4 10 (fun c => c.length) []
      [{ path := [97], mtime := 0, content := [1] }] (by decide)).2.1⟩

/-! ## Initial-mode deduplication by hash -/

theorem lastPerHash_step_keys (acc : List (Nat × FileEntry)) (p : Nat × FileEntry)
    (h : (acc.map Prod.fst).Nodup) :
    ((acc.filter (fun q => q.1 != p.1) ++ [p]).map Prod.fst).Nodup := by
  rw [List.map_append, List.nodup_append]
  refine ⟨((List.filter_sublist acc).map Prod.fst).nodup h, by simp, ?_⟩
  intro a ha1 ha2
  rcases List.mem_map.1 ha1 with ⟨q, hq, rfl⟩
  obtain ⟨_, hcond⟩ := List.mem_filter.1 hq
  have hne : q.1 ≠ p.1 := by simpa using hcond
  apply hne
  simpa using ha2

theorem lastPerHash_fold_keys_nodup :
    ∀ (l : List (Nat × FileEntry)) (acc : List (Nat × FileEntry)),
      (acc.map Prod.fst).Nodup →
      ((l.foldl (fun acc p => acc.filter (fun q => q.1 != p.1) ++ [p]) acc).map
        Prod.fst).Nodup := by
  intro l
  induction l with
  | nil => intro acc h; exact h
  | cons p rest ih =>
    intro acc h
    rw [List.foldl_cons]
    exact ih _ (lastPerHash_step_keys acc p h)

theorem lastPerHash_keys_nodup (l : List (Nat × FileEntry)) :
    ((lastPerHash l).map Prod.fst).Nodup := by
  unfold lastPerHash
  exact lastPerHash_fold_keys_nodup l [] List.nodup_nil

theorem lastPerHash_fold_keys_mem :
    ∀ (l : List (Nat × FileEntry)) (acc : List (Nat × FileEntry)) (h : Nat),
      (h ∈ (l.foldl (fun acc p => acc.filter (fun q => q.1 != p.1) ++ [p]) acc).map
          Prod.fst ↔
        h ∈ acc.map Prod.fst ∨ h ∈ l.map Prod.fst) := by
  intro l
  induction l with
  | nil =>
    intro acc h
    simp
  | cons p rest ih =>
    intro acc h
    rw [List.foldl_cons, ih]
    have hstep : h ∈ ((acc.filter (fun q => q.1 != p.1) ++ [p]).map Prod.fst) ↔
        h ∈ acc.map Prod.fst ∨ h = p.1 := by
      rw [List.map_append]
      rw [List.mem_append]
      constructor
      · intro hh
        rcases hh with hh | hh
        · rcases List.mem_map.1 hh with ⟨q, hq, rfl⟩
          exact Or.inl (List.mem_map_of_mem Prod.fst (List.mem_filter.1 hq).1)
        · right
          simpa using hh
      · intro hh
        rcases hh with hh | hh
        · rcases List.mem_map.1 hh with ⟨q, hq, rfl⟩
          by_cases hqp : q.1 = p.1
          · right
            simpa using hqp
          · left
            apply List.mem_map_of_mem Prod.fst
            apply List.mem_filter.2
            exact ⟨hq, by simpa using hqp⟩
        · right
          simpa using hh
    rw [hstep]
    rw [List.map_cons, List.mem_cons]
    tauto

theorem lastPerHash_keys_mem (l : List (Nat × FileEntry)) (h : Nat) :
    h ∈ (lastPerHash l).map Prod.fst ↔ h ∈ l.map Prod.fst := by
  unfold lastPerHash
  rw [lastPerHash_fold_keys_mem l [] h]
  simp

theorem lastPerHash_fold_id :
    ∀ (l : List (Nat × FileEntry)) (acc : List (Nat × FileEntry)),
      (∀ h ∈ acc.map Prod.fst, h ∉ l.map Prod.fst) →
      (l.map Prod.fst).Nodup →
      l.foldl (fun acc p => acc.filter (fun q => q.1 != p.1) ++ [p]) acc = acc ++ l := by
  intro l
  induction l with
  | nil =>
    intro acc _ _
    rw [List.foldl_nil, List.append_nil]
  | cons p rest ih =>
    intro acc hdis hnd
    rw [List.map_cons, List.nodup_cons] at hnd
    obtain ⟨hp, hnd'⟩ := hnd
    rw [List.foldl_cons]
    have hfix : acc.filter (fun q => q.1 != p.1) = acc := by
      apply List.filter_eq_self.2
      intro q hq
      have := hdis q.1 (List.mem_map_of_mem Prod.fst hq)
      simp only [List.map_cons, List.mem_cons] at this
      simpa using fun hh => this (Or.inl hh)
    rw [hfix]
    rw [ih (acc ++ [p]) ?_ hnd']
    · rw [List.append_assoc, List.singleton_append]
    · intro h hh
      rw [List.map_append, List.mem_append] at hh
      rcases hh with hh | hh
      · have := hdis h hh
        simp only [List.map_cons, List.mem_cons] at this
        exact fun hr => this (Or.inr hr)
      · have hhp : h = p.1 := by simpa using hh
        rw [hhp]
        exact hp

theorem lastPerHash_id (l : List (Nat × FileEntry))
    (hnd : (l.map Prod.fst).Nodup) : lastPerHash l = l := by
  unfold lastPerHash
  rw [lastPerHash_fold_id l [] (by simp) hnd]
  rw [List.nil_append]

theorem zip_self_map {α β : Type} (f : α → β) :
    ∀ l : List α, l.zip (l.map f) = l.map (fun a => (a, f a)) := by
  intro l
  induction l with
  | nil => rfl
  | cons a t ih =>
    rw [List.map_cons, List.zip_cons_cons, ih, List.map_cons]

theorem initial_indexRows (S cap : Nat) (hashOf : List Nat → Nat)
    (files : List FileEntry) :
    (initial_backup S cap hashOf files).indexRows =
      files.map (fun e => rowOf e (hashOf e.content)) := by
  show (files.zip (files.map (fun e => hashOf e.content))).map (fun x => rowOf x.1 x.2) =
    files.map (fun e => rowOf e (hashOf e.content))
  rw [zip_self_map (fun e => hashOf e.content) files, List.map_map]
  rfl

theorem initial_splits (S cap : Nat) (hashOf : List Nat → Nat)
    (files : List FileEntry) :
    (initial_backup S cap hashOf files).splits =
      (write_bak_files S cap hashOf (initialFilesToBackup hashOf files)).1 := rfl

theorem initial_pack (S cap : Nat) (hashOf : List Nat → Nat)
    (files : List FileEntry) :
    (initial_backup S cap hashOf files).pack =
      (write_bak_files S cap hashOf (initialFilesToBackup hashOf files)).2 := rfl

theorem initialFilesToBackup_perm (hashOf : List Nat → Nat) (files : List FileEntry) :
    (initialFilesToBackup hashOf files).Perm
      (lastPerHash (files.map (fun e => (hashOf e.content, e)))) := by
  unfold initialFilesToBackup sortByPath
  exact List.mergeSort_perm _ _

theorem initial_splits_hashes (S cap : Nat) (hashOf : List Nat → Nat)
    (files : List FileEntry) :
    (initial_backup S cap hashOf files).splits.map (fun sp => sp.file_hash) =
      (initialFilesToBackup hashOf files).map Prod.fst := by
  rw [initial_splits, write_bak_files_eq_packFiles, packFiles_hashes]

theorem initial_splits_hashes_nodup (S cap : Nat) (hashOf : List Nat → Nat)
    (files : List FileEntry) :
    ((initial_backup S cap hashOf files).splits.map (fun sp => sp.file_hash)).Nodup := by
  rw [initial_splits_hashes]
  exact (((initialFilesToBackup_perm hashOf files).map Prod.fst).symm).nodup
    (lastPerHash_keys_nodup _)

theorem initial_splits_hashes_mem (S cap : Nat) (hashOf : List Nat → Nat)
    (files : List FileEntry) (h : Nat) :
    h ∈ (initial_backup S cap hashOf files).splits.map (fun sp => sp.file_hash) ↔
      h ∈ files.map (fun e => hashOf e.content) := by
  rw [initial_splits_hashes]
  rw [((initialFilesToBackup_perm hashOf files).map Prod.fst).mem_iff]
  rw [lastPerHash_keys_mem]
  rw [List.map_map]
  rfl

/-- Claim C6: after an initial backup, the index has exactly one row per
scanned file (duplicates included), each carrying the hash of that file's
own content, so the row count equals the scan count; the chunk table holds
the chunks of exactly one representative per unique file hash. -/
theorem claim_c6_initial_rows (S cap : Nat) (hashOf : List Nat → Nat)
    (files : List FileEntry) (hpaths : (files.map (fun e => e.path)).Nodup) :
    (initial_backup S cap hashOf files).indexRows =
      files.map (fun e => rowOf e (hashOf e.content)) ∧
    (initial_backup S cap hashOf files).indexRows.length = files.length ∧
    ((initial_backup S cap hashOf files).splits.map (fun sp => sp.file_hash)).Nodup ∧
    (∀ h, h ∈ (initial_backup S cap hashOf files).splits.map (fun sp => sp.file_hash) ↔
      h ∈ files.map (fun e => hashOf e.content)) := by
  refine ⟨initial_indexRows S cap hashOf files, ?_,
    initial_splits_hashes_nodup S cap hashOf files,
    initial_splits_hashes_mem S cap hashOf files⟩
  rw [initial_indexRows S cap hashOf files, List.length_map]

/-- Witness for claim C6 on a two-file scan with duplicate content. -/
theorem claim_c6_witness :
    (([({ path := [97], mtime := 0, content := [1] } : FileEntry),
       { path := [98], mtime := 0, content := [1] }].map (fun e => e.path)).Nodup) ∧
    (initial_backup 4 10 (fun c => c.length)
      [{ path := [97], mtime := 0, content := [1] },
       { path := [98], mtime := 0, content := [1] }]).indexRows.length = 2 :=
  ⟨by decide,
    (claim_c6_initial_rows 4 10 (fun c => c.length)
      [{ path := [97], mtime := 0, content := [1] },
       { path := [98], mtime := 0, content := [1] }] (by decide)).2.1⟩

/-! ## Duplicate-content files in differential mode -/

theorem count_map_two {α β : Type} [DecidableEq α] [BEq β] [LawfulBEq β] (f : α → β)
    (l : List α) (x1 x2 : α) (h1 : x1 ∈ l) (h2 : x2 ∈ l) (hne : x1 ≠ x2)
    (hnd : l.Nodup) (hf : f x1 = f x2) : 2 ≤ (l.map f).count (f x1) := by
  have hp := perm_cons_removeOne x1 l h1
  have h2x : x2 ∈ removeOne x1 l :=
    (mem_removeOne x1 x2 l hnd).2 ⟨h2, fun hh => hne hh.symm⟩
  have hcount : (l.map f).count (f x1) = ((x1 :: removeOne x1 l).map f).count (f x1) := by
    simp only [List.count]
    exact (hp.map f).countP_eq _
  rw [List.map_cons, List.count_cons_self] at hcount
  have hmem : f x1 ∈ (removeOne x1 l).map f := by
    rw [hf]
    exact List.mem_map_of_mem f h2x
  have hpos : 0 < ((removeOne x1 l).map f).count (f x1) := List.count_pos_iff.2 hmem
  omega

theorem packFiles_splits_spec (S cap : Nat) (hashOf : List Nat → Nat) :
    ∀ (files : List (Nat × FileEntry)) (s : PackState),
      (packFiles S cap hashOf s files).1.map
        (fun sp => (sp.file_hash, sp.chunks.map (fun c => c.size))) =
      files.map (fun hf => (hf.1, (fileChunks S hf.2.content).map (fun p => p.1))) := by
  intro files
  induction files with
  | nil => intro s; rfl
  | cons hf rest ih =>
    intro s
    simp only [packFiles, List.map_cons]
    rw [packChunks_sizes, ih]

/-- Counterexample to claim C9 as stated: two distinct scanned files with
byte-identical content whose common hash is absent from the reference
index, yet only one of them is marked to-write, because the first one is
captured by the metadata tier (its path, mtime and size match a reference
row whose content changed). -/
theorem claim_c9_counterexample :
    (({ path := [97], mtime := 5, content := [1, 2] } : FileEntry) ≠
      { path := [98], mtime := 5, content := [1, 2] }) ∧
    ({ path := [97], mtime := 5, content := [1, 2] } : FileEntry).content =
      ({ path := [98], mtime := 5, content := [1, 2] } : FileEntry).content ∧
    ((fun _ => 7) : List Nat → Nat) [1, 2] ∉
      refHashes [{ path := [97], size := 2, mtime := 5, hash := 99 }] ∧
    (diffToBackup [{ path := [97], size := 2, mtime := 5, hash := 99 }] (fun _ => 7)
      [{ path := [97], mtime := 5, content := [1, 2] },
       { path := [98], mtime := 5, content := [1, 2] }]).length = 1 ∧
    (∀ x ∈ diffToBackup [{ path := [97], size := 2, mtime := 5, hash := 99 }]
        (fun _ => 7)
        [{ path := [97], mtime := 5, content := [1, 2] },
         { path := [98], mtime := 5, content := [1, 2] }], x.2.1 ≠ 0) := by
  decide

/-- Claim C9 (amended): for two distinct scanned files with byte-identical
content that both miss the metadata tier and whose common hash is absent
from the reference index, there is no within-run deduplication: both are
marked to-write, the chunk table receives two complete per-file sets of
chunk rows keyed by the same file hash, while initial mode always packs one
representative per unique hash. -/
theorem claim_c9_no_within_run_dedup (S cap : Nat) (hashOf : List Nat → Nat)
    (old : List IndexRow) (files : List FileEntry) (i j : Nat) (ei ej : FileEntry)
    (hi : (i, ei) ∈ scanIdx files) (hj : (j, ej) ∈ scanIdx files) (hij : i ≠ j)
    (hc : ei.content = ej.content)
    (h1i : metadataLookup old ei = none) (h1j : metadataLookup old ej = none)
    (h2 : hashOf ei.content ∉ refHashes old) :
    ((hashOf ei.content, (i, ei)) : Nat × (Nat × FileEntry)) ∈
      diffToBackup old hashOf files ∧
    ((hashOf ei.content, (j, ej)) : Nat × (Nat × FileEntry)) ∈
      diffToBackup old hashOf files ∧
    2 ≤ ((differential_backup S cap hashOf old files).splits.map
      (fun sp => (sp.file_hash, sp.chunks.map (fun c => c.size)))).count
      (hashOf ei.content, (fileChunks S ei.content).map (fun p => p.1)) ∧
    (∀ files' : List FileEntry,
      ((initial_backup S cap hashOf files').splits.map (fun sp => sp.file_hash)).Nodup) := by
  have h2j : hashOf ej.content ∉ refHashes old := by
    rw [← hc]
    exact h2
  have hmi := diffToBackup_mem_intro old hashOf files i ei hi h1i h2
  have hmj := diffToBackup_mem_intro old hashOf files j ej hj h1j h2j
  have hmj' : ((hashOf ei.content, (j, ej)) : Nat × (Nat × FileEntry)) ∈
      diffToBackup old hashOf files := by
    rw [hc]
    exact hmj
  refine ⟨hmi, hmj', ?_, fun files' => initial_splits_hashes_nodup S cap hashOf files'⟩
  have hsp : (differential_backup S cap hashOf old files).splits.map
      (fun sp => (sp.file_hash, sp.chunks.map (fun c => c.size))) =
      (diffFilesToBackup old hashOf files).map (fun x =>
        (x.1, (fileChunks S x.2.2.content).map (fun p => p.1))) := by
    rw [differential_splits, write_bak_files_eq_packFiles, packFiles_splits_spec,
      List.map_map]
    rfl
  rw [hsp]
  have hftb := diffFilesToBackup_perm old hashOf files
  have hx1 : ((hashOf ei.content, (i, ei)) : Nat × (Nat × FileEntry)) ∈
      diffFilesToBackup old hashOf files := hftb.mem_iff.2 hmi
  have hx2 : ((hashOf ei.content, (j, ej)) : Nat × (Nat × FileEntry)) ∈
      diffFilesToBackup old hashOf files := hftb.mem_iff.2 hmj'
  have hne : ((hashOf ei.content, (i, ei)) : Nat × (Nat × FileEntry)) ≠
      (hashOf ei.content, (j, ej)) := by
    intro hh
    exact hij (congrArg (fun y : Nat × (Nat × FileEntry) => y.2.1) hh)
  have hnd : (diffFilesToBackup old hashOf files).Nodup :=
    List.Nodup.of_map _ (diffFilesToBackup_keys_nodup old hashOf files)
  have hfeq : (fun x : Nat × (Nat × FileEntry) =>
      (x.1, (fileChunks S x.2.2.content).map (fun p => p.1)))
      (hashOf ei.content, (i, ei)) =
      (fun x : Nat × (Nat × FileEntry) =>
      (x.1, (fileChunks S x.2.2.content).map (fun p => p.1)))
      (hashOf ei.content, (j, ej)) := by
    show (hashOf ei.content, (fileChunks S ei.content).map (fun p => p.1)) =
      (hashOf ei.content, (fileChunks S ej.content).map (fun p => p.1))
    rw [hc]
  exact count_map_two
    (fun x : Nat × (Nat × FileEntry) =>
      (x.1, (fileChunks S x.2.2.content).map (fun p => p.1)))
    (diffFilesToBackup old hashOf files) (hashOf ei.content, (i, ei))
    (hashOf ei.content, (j, ej)) hx1 hx2 hne hnd hfeq

/-- Witness for claim C9 (amended) on two renamed copies of the same new
content. -/
theorem claim_c9_witness :
    (((0, ({ path := [97], mtime := 0, content := [1, 2] } : FileEntry))) ∈
      scanIdx [({ path := [97], mtime := 0, content := [1, 2] } : FileEntry),
        { path := [98], mtime := 0, content := [1, 2] }]) ∧
    ((2, (0, ({ path := [97], mtime := 0, content := [1, 2] } : FileEntry))) ∈
      diffToBackup [{ path := [120], size := 9, mtime := 9, hash := 99 }]
        (fun c => c.length)
        [{ path := [97], mtime := 0, content := [1, 2] },
         { path := [98], mtime := 0, content := [1, 2] }]) :=
  ⟨by decide,
    (claim_c9_no_within_run_dedup 4 10 (fun c => c.length)
      [{ path := [120], size := 9, mtime := 9, hash := 99 }]
      [{ path := [97], mtime := 0, content := [1, 2] },
       { path := [98], mtime := 0, content := [1, 2] }] 0 1
      { path := [97], mtime := 0, content := [1, 2] }
      { path := [98], mtime := 0, content := [1, 2] }
      (by decide) (by decide) (by decide) (by decide) (by decide) (by decide)
      (by decide)).1⟩

/-! ## The path order: totality, transitivity, antisymmetry -/

theorem pathLe_total : ∀ a b : PathBytes, pathLe a b = true ∨ pathLe b a = true := by
  intro a
  induction a with
  | nil => intro b; exact Or.inl rfl
  | cons x xs ih =>
    intro b
    cases b with
    | nil => exact Or.inr rfl
    | cons y ys =>
      rcases Nat.lt_trichotomy x y with h | h | h
      · exact Or.inl (by simp [pathLe, h])
      · subst h
        rcases ih ys with h2 | h2
        · exact Or.inl (by simp [pathLe, Nat.lt_irrefl, h2])
        · exact Or.inr (by simp [pathLe, Nat.lt_irrefl, h2])
      · exact Or.inr (by simp [pathLe, h])

theorem pathLe_total_bool (a b : PathBytes) : (pathLe a b || pathLe b a) = true := by
  rcases pathLe_total a b with h | h
  · rw [h]
    rfl
  · rw [h]
    simp

theorem pathLe_trans : ∀ a b c : PathBytes, pathLe a b = true → pathLe b c = true →
    pathLe a c = true := by
  intro a
  induction a with
  | nil => intro b c _ _; rfl
  | cons x xs ih =>
    intro b c hab hbc
    cases b with
    | nil => exact absurd hab (by simp [pathLe])
    | cons y ys =>
      cases c with
      | nil => exact absurd hbc (by simp [pathLe])
      | cons z zs =>
        rcases Nat.lt_trichotomy x y with hxy | hxy | hxy
        · rcases Nat.lt_trichotomy y z with hyz | hyz | hyz
          · simp [pathLe, Nat.lt_trans hxy hyz]
          · subst hyz
            simp [pathLe, hxy]
          · exact absurd hbc (by simp [pathLe, hyz, Nat.lt_asymm hyz])
        · subst hxy
          rcases Nat.lt_trichotomy x z with hxz | hxz | hxz
          · simp [pathLe, hxz]
          · subst hxz
            have htab : pathLe xs ys = true := by
              simpa [pathLe, Nat.lt_irrefl] using hab
            have htbc : pathLe ys zs = true := by
              simpa [pathLe, Nat.lt_irrefl] using hbc
            simpa [pathLe, Nat.lt_irrefl] using ih ys zs htab htbc
          · exact absurd hbc (by simp [pathLe, hxz, Nat.lt_asymm hxz])
        · exact absurd hab (by simp [pathLe, hxy, Nat.lt_asymm hxy])

theorem pathLe_antisymm : ∀ a b : PathBytes, pathLe a b = true → pathLe b a = true →
    a = b := by
  intro a
  induction a with
  | nil =>
    intro b _ hba
    cases b with
    | nil => rfl
    | cons y ys => exact absurd hba (by simp [pathLe])
  | cons x xs ih =>
    intro b hab hba
    cases b with
    | nil => exact absurd hab (by simp [pathLe])
    | cons y ys =>
      rcases Nat.lt_trichotomy x y with h | h | h
      · exact absurd hba (by simp [pathLe, h, Nat.lt_asymm h])
      · subst h
        have h1 : pathLe xs ys = true := by simpa [pathLe, Nat.lt_irrefl] using hab
        have h2 : pathLe ys xs = true := by simpa [pathLe, Nat.lt_irrefl] using hba
        rw [ih ys h1 h2]
      · exact absurd hab (by simp [pathLe, h, Nat.lt_asymm h])

theorem sorted_perm_eq {α : Type} (key : α → PathBytes) :
    ∀ (l1 l2 : List α), l1.Perm l2 →
      l1.Pairwise (fun a b => pathLe (key a) (key b) = true) →
      l2.Pairwise (fun a b => pathLe (key a) (key b) = true) →
      (l1.map key).Nodup → l1 = l2 := by
  intro l1
  induction l1 with
  | nil =>
    intro l2 hp _ _ _
    exact (hp.symm.eq_nil).symm
  | cons a t1 ih =>
    intro l2 hp hs1 hs2 hnd
    cases l2 with
    | nil => exact absurd hp.eq_nil (by simp)
    | cons b t2 =>
      rw [List.pairwise_cons] at hs1 hs2
      obtain ⟨ha1, hs1t⟩ := hs1
      obtain ⟨hb2, hs2t⟩ := hs2
      rw [List.map_cons, List.nodup_cons] at hnd
      obtain ⟨hka, hndt⟩ := hnd
      have hab : a = b := by
        have hbmem : b ∈ a :: t1 := hp.mem_iff.2 (List.mem_cons_self b t2)
        rcases List.mem_cons.1 hbmem with hba | hbt
        · exact hba.symm
        · have hamem : a ∈ b :: t2 := hp.mem_iff.1 (List.mem_cons_self a t1)
          rcases List.mem_cons.1 hamem with hab2 | hat
          · exact hab2
          · have h1 := ha1 b hbt
            have h2 := hb2 a hat
            have hk : key a = key b := pathLe_antisymm (key a) (key b) h1 h2
            exact absurd (by rw [hk]; exact List.mem_map_of_mem key hbt) hka
      subst hab
      have ht : t1.Perm t2 := hp.cons_inv
      rw [ih t2 ht hs1t hs2t hndt]

theorem sortByPath_sorted {α : Type} (key : α → PathBytes) (l : List α) :
    (sortByPath key l).Pairwise (fun a b => pathLe (key a) (key b) = true) := by
  unfold sortByPath
  exact List.sorted_mergeSort
    (fun a b c hab hbc => pathLe_trans (key a) (key b) (key c) hab hbc)
    (fun a b => pathLe_total_bool (key a) (key b)) l

theorem sortByPath_perm {α : Type} (key : α → PathBytes) (l : List α) :
    (sortByPath key l).Perm l := by
  unfold sortByPath
  exact List.mergeSort_perm l _

/-! ## Dropping the scan indices: projections to plain file lists -/

theorem filter_filterMap_eq {α γ : Type} (P : α → Bool) (Q : α → Option γ) :
    ∀ l : List α, (l.filter P).filterMap Q =
      l.filterMap (fun a => if P a = true then Q a else none) := by
  intro l
  induction l with
  | nil => rfl
  | cons a t ih =>
    rw [List.filter_cons]
    by_cases h : P a = true
    · rw [if_pos h, List.filterMap_cons, List.filterMap_cons, if_pos h]
      cases Q a
      · exact ih
      · rw [ih]
    · rw [if_neg h, List.filterMap_cons, if_neg h]
      exact ih

theorem enumFrom_filterMap_proj {α β γ : Type} (G : Nat × α → Option γ)
    (F : α → Option β) (proj : γ → β)
    (hcomm : ∀ (i : Nat) (a : α), (G (i, a)).map proj = F a) :
    ∀ (l : List α) (n : Nat),
      ((List.enumFrom n l).filterMap G).map proj = l.filterMap F := by
  intro l
  induction l with
  | nil => intro n; rfl
  | cons a t ih =>
    intro n
    rw [List.enumFrom_cons, List.filterMap_cons, List.filterMap_cons]
    cases hG : G (n, a) with
    | none =>
      have hF : F a = none := by
        have h := hcomm n a
        rw [hG] at h
        exact h.symm
      rw [hF]
      exact ih (n + 1)
    | some c =>
      have hF : F a = some (proj c) := by
        have h := hcomm n a
        rw [hG] at h
        exact h.symm
      rw [hF, List.map_cons]
      rw [ih (n + 1)]

theorem scanIdx_enumFrom (files : List FileEntry) :
    scanIdx files = List.enumFrom 0 files := rfl

theorem diffToBackup_proj (old : List IndexRow) (hashOf : List Nat → Nat)
    (files : List FileEntry) :
    (diffToBackup old hashOf files).map (fun x => (x.1, x.2.2)) =
      files.filterMap (fun e =>
        if (metadataLookup old e).isNone = true then
          (if hashOf e.content ∈ refHashes old then none
           else some (hashOf e.content, e))
        else none) := by
  unfold diffToBackup
  rw [tier2Split_fst]
  unfold diffRemaining
  rw [tier1Split_snd, filter_filterMap_eq, scanIdx_enumFrom]
  refine enumFrom_filterMap_proj _ _ _ ?_ files 0
  intro i e
  by_cases h1 : (metadataLookup old e).isNone = true <;>
    by_cases h2 : hashOf e.content ∈ refHashes old <;>
    simp [h1, h2]

theorem diffDuplicates_proj (old : List IndexRow) (hashOf : List Nat → Nat)
    (files : List FileEntry) :
    (diffDuplicates old hashOf files).map (fun d => (d.1.2, d.2)) =
      files.filterMap (fun e => (metadataLookup old e).map (fun r => (e, r.hash)))
      ++ files.filterMap (fun e =>
          if (metadataLookup old e).isNone = true then
            (if hashOf e.content ∈ refHashes old then some (e, hashOf e.content)
             else none)
          else none) := by
  unfold diffDuplicates
  rw [List.map_append]
  congr 1
  · rw [tier1Split_fst, scanIdx_enumFrom]
    refine enumFrom_filterMap_proj _ _ _ ?_ files 0
    intro i e
    cases hm : metadataLookup old e <;> simp [hm]
  · rw [tier2Split_snd]
    unfold diffRemaining
    rw [tier1Split_snd, filter_filterMap_eq, scanIdx_enumFrom]
    refine enumFrom_filterMap_proj _ _ _ ?_ files 0
    intro i e
    by_cases h1 : (metadataLookup old e).isNone = true <;>
      by_cases h2 : hashOf e.content ∈ refHashes old <;>
      simp [h1, h2]

theorem diffF_snd_sublist (old : List IndexRow) (hashOf : List Nat → Nat) :
    ∀ files : List FileEntry,
      ((files.filterMap (fun e =>
        if (metadataLookup old e).isNone = true then
          (if hashOf e.content ∈ refHashes old then none
           else some (hashOf e.content, e))
        else none)).map (fun x => x.2)).Sublist files := by
  intro files
  induction files with
  | nil => exact List.Sublist.refl _
  | cons e t ih =>
    rw [List.filterMap_cons]
    by_cases h1 : (metadataLookup old e).isNone = true
    · by_cases h2 : hashOf e.content ∈ refHashes old
      · simp only [h1, h2, if_true, if_pos]
        exact List.Sublist.cons e ih
      · simp only [h1, h2, if_true, if_false, if_pos, if_neg, not_false_iff,
          List.map_cons]
        exact List.Sublist.cons₂ e ih
    · simp only [h1, if_false, if_neg, not_false_iff]
      exact List.Sublist.cons e ih

/-! ## Scan-order independence of the pack inputs -/

theorem diff_pack_input_eq (old : List IndexRow) (hashOf : List Nat → Nat)
    (files1 files2 : List FileEntry) (hperm : files1.Perm files2)
    (hpaths : (files1.map (fun e => e.path)).Nodup) :
    (diffFilesToBackup old hashOf files1).map (fun x => (x.1, x.2.2)) =
      (diffFilesToBackup old hashOf files2).map (fun x => (x.1, x.2.2)) := by
  have hpaths2 : (files2.map (fun e => e.path)).Nodup :=
    (hperm.map (fun e => e.path)).nodup hpaths
  have hp1 : ((diffFilesToBackup old hashOf files1).map (fun x => (x.1, x.2.2))).Perm
      (files1.filterMap (fun e =>
        if (metadataLookup old e).isNone = true then
          (if hashOf e.content ∈ refHashes old then none
           else some (hashOf e.content, e))
        else none)) := by
    have h := (diffFilesToBackup_perm old hashOf files1).map (fun x => (x.1, x.2.2))
    rw [diffToBackup_proj] at h
    exact h
  have hp2 : ((diffFilesToBackup old hashOf files2).map (fun x => (x.1, x.2.2))).Perm
      (files2.filterMap (fun e =>
        if (metadataLookup old e).isNone = true then
          (if hashOf e.content ∈ refHashes old then none
           else some (hashOf e.content, e))
        else none)) := by
    have h := (diffFilesToBackup_perm old hashOf files2).map (fun x => (x.1, x.2.2))
    rw [diffToBackup_proj] at h
    exact h
  have hperm12 : ((diffFilesToBackup old hashOf files1).map (fun x => (x.1, x.2.2))).Perm
      ((diffFilesToBackup old hashOf files2).map (fun x => (x.1, x.2.2))) :=
    hp1.trans ((hperm.filterMap _).trans hp2.symm)
  have hsA1 : ((diffFilesToBackup old hashOf files1).map (fun x => (x.1, x.2.2))).Pairwise
      (fun a b => pathLe a.2.path b.2.path = true) :=
    List.pairwise_map.2 (sortByPath_sorted (fun x : Nat × (Nat × FileEntry) => x.2.2.path) _)
  have hsA2 : ((diffFilesToBackup old hashOf files2).map (fun x => (x.1, x.2.2))).Pairwise
      (fun a b => pathLe a.2.path b.2.path = true) :=
    List.pairwise_map.2 (sortByPath_sorted (fun x : Nat × (Nat × FileEntry) => x.2.2.path) _)
  have hndF : ((files1.filterMap (fun e =>
      if (metadataLookup old e).isNone = true then
        (if hashOf e.content ∈ refHashes old then none
         else some (hashOf e.content, e))
      else none)).map (fun x => x.2.path)).Nodup := by
    have h1 : (files1.filterMap (fun e =>
        if (metadataLookup old e).isNone = true then
          (if hashOf e.content ∈ refHashes old then none
           else some (hashOf e.content, e))
        else none)).map (fun x => x.2.path) =
        ((files1.filterMap (fun e =>
          if (metadataLookup old e).isNone = true then
            (if hashOf e.content ∈ refHashes old then none
             else some (hashOf e.content, e))
          else none)).map (fun x => x.2)).map (fun e => e.path) := by
      rw [List.map_map]
      rfl
    rw [h1]
    exact ((diffF_snd_sublist old hashOf files1).map (fun e => e.path)).nodup hpaths
  have hndA1 : (((diffFilesToBackup old hashOf files1).map
      (fun x => (x.1, x.2.2))).map (fun x => x.2.path)).Nodup :=
    ((hp1.map (fun x => x.2.path)).symm).nodup hndF
  exact sorted_perm_eq (fun x : Nat × FileEntry => x.2.path) _ _ hperm12 hsA1 hsA2 hndA1

theorem initial_ftb_eq (hashOf : List Nat → Nat) (files1 files2 : List FileEntry)
    (hperm : files1.Perm files2)
    (hpaths : (files1.map (fun e => e.path)).Nodup)
    (hhashes : (files1.map (fun e => hashOf e.content)).Nodup) :
    initialFilesToBackup hashOf files1 = initialFilesToBackup hashOf files2 := by
  have hhashes2 : (files2.map (fun e => hashOf e.content)).Nodup :=
    (hperm.map (fun e => hashOf e.content)).nodup hhashes
  have hid1 : lastPerHash (files1.map (fun e => (hashOf e.content, e))) =
      files1.map (fun e => (hashOf e.content, e)) := by
    apply lastPerHash_id
    have h : (files1.map (fun e => (hashOf e.content, e))).map Prod.fst =
        files1.map (fun e => hashOf e.content) := by
      rw [List.map_map]
      rfl
    rw [h]
    exact hhashes
  have hid2 : lastPerHash (files2.map (fun e => (hashOf e.content, e))) =
      files2.map (fun e => (hashOf e.content, e)) := by
    apply lastPerHash_id
    have h : (files2.map (fun e => (hashOf e.content, e))).map Prod.fst =
        files2.map (fun e => hashOf e.content) := by
      rw [List.map_map]
      rfl
    rw [h]
    exact hhashes2
  have hkeys1 : ((sortByPath (fun x : Nat × FileEntry => x.2.path)
      (files1.map (fun e => (hashOf e.content, e)))).map (fun x => x.2.path)).Nodup := by
    have h1 : (files1.map (fun e => (hashOf e.content, e))).map (fun x => x.2.path) =
        files1.map (fun e => e.path) := by
      rw [List.map_map]
      rfl
    have h2 := (sortByPath_perm (fun x : Nat × FileEntry => x.2.path)
      (files1.map (fun e => (hashOf e.content, e)))).map (fun x => x.2.path)
    rw [h1] at h2
    exact h2.symm.nodup hpaths
  unfold initialFilesToBackup
  rw [hid1, hid2]
  apply sorted_perm_eq (fun x : Nat × FileEntry => x.2.path)
  · exact (sortByPath_perm _ _).trans ((hperm.map _).trans (sortByPath_perm _ _).symm)
  · exact sortByPath_sorted (fun x : Nat × FileEntry => x.2.path) _
  · exact sortByPath_sorted (fun x : Nat × FileEntry => x.2.path) _
  · exact hkeys1

/-- Counterexample to claim C8 as stated: in initial mode the bak payloads
are not independent of the scan order.  Two files with identical one-byte
content collide in the `unique_list` hash map; the map keeps the
last-inserted entry, so the packed representative — and with it the bak0
payload — depends on the order of the scan, even though all paths are
distinct. -/
theorem claim_c8_counterexample :
    (([{ path := [97], mtime := 0, content := [1] },
       { path := [122], mtime := 0, content := [1] },
       { path := [109], mtime := 0, content := [9, 9, 9] }] : List FileEntry).Perm
      [{ path := [122], mtime := 0, content := [1] },
       { path := [97], mtime := 0, content := [1] },
       { path := [109], mtime := 0, content := [9, 9, 9] }]) ∧
    (initial_backup 100 1000 (fun c => c.length)
      [{ path := [97], mtime := 0, content := [1] },
       { path := [122], mtime := 0, content := [1] },
       { path := [109], mtime := 0, content := [9, 9, 9] }]).pack.baks 0 ≠
    (initial_backup 100 1000 (fun c => c.length)
      [{ path := [122], mtime := 0, content := [1] },
       { path := [97], mtime := 0, content := [1] },
       { path := [109], mtime := 0, content := [9, 9, 9] }]).pack.baks 0 := by
  refine ⟨by decide, ?_⟩
  have h1 : (initial_backup 100 1000 (fun c => c.length)
      [{ path := [97], mtime := 0, content := [1] },
       { path := [122], mtime := 0, content := [1] },
       { path := [109], mtime := 0, content := [9, 9, 9] }]).pack.baks 0 =
      [9, 9, 9, 1] := by
    simp [initial_backup, initialFilesToBackup, lastPerHash, sortByPath, List.mergeSort,
      pathLe, write_bak_files, packChunks, writeChunkStep, fileChunks, chunks_ranges,
      sliceBytes, initPackState]
  have h2 : (initial_backup 100 1000 (fun c => c.length)
      [{ path := [122], mtime := 0, content := [1] },
       { path := [97], mtime := 0, content := [1] },
       { path := [109], mtime := 0, content := [9, 9, 9] }]).pack.baks 0 =
      [1, 9, 9, 9] := by
    simp [initial_backup, initialFilesToBackup, lastPerHash, sortByPath, List.mergeSort,
      pathLe, write_bak_files, packChunks, writeChunkStep, fileChunks, chunks_ranges,
      sliceBytes, initPackState]
  rw [h1, h2]
  decide

/-- Claim C8 (amended): in both modes the files handed to the chunk-and-pack
engine are path-sorted, and the chunk table lists the to-write file hashes in
exactly that sorted order.  For two scans that are permutations of each other
(with distinct paths, as the scanner guarantees), a differential run produces
identical splits and bak payloads and the same index rows up to insertion
order; an initial run does so too provided the scanned files' content hashes
are pairwise distinct — without that proviso the hash-map representative, and
with it the bak payloads, may depend on the scan order. -/
theorem claim_c8_sorted_and_deterministic (S cap : Nat) (hashOf : List Nat → Nat)
    (old : List IndexRow) (files1 files2 : List FileEntry)
    (hperm : files1.Perm files2)
    (hpaths : (files1.map (fun e => e.path)).Nodup) :
    (diffFilesToBackup old hashOf files1).Pairwise
      (fun a b => pathLe a.2.2.path b.2.2.path = true) ∧
    (initialFilesToBackup hashOf files1).Pairwise
      (fun a b => pathLe a.2.path b.2.path = true) ∧
    ((differential_backup S cap hashOf old files1).splits.map (fun sp => sp.file_hash) =
      (diffFilesToBackup old hashOf files1).map (fun x => x.1)) ∧
    ((differential_backup S cap hashOf old files1).splits =
      (differential_backup S cap hashOf old files2).splits) ∧
    (∀ n, (differential_backup S cap hashOf old files1).pack.baks n =
      (differential_backup S cap hashOf old files2).pack.baks n) ∧
    ((differential_backup S cap hashOf old files1).indexRows.Perm
      (differential_backup S cap hashOf old files2).indexRows) ∧
    ((files1.map (fun e => hashOf e.content)).Nodup →
      (initial_backup S cap hashOf files1).splits =
        (initial_backup S cap hashOf files2).splits ∧
      (∀ n, (initial_backup S cap hashOf files1).pack.baks n =
        (initial_backup S cap hashOf files2).pack.baks n) ∧
      (initial_backup S cap hashOf files1).indexRows.Perm
        (initial_backup S cap hashOf files2).indexRows) := by
  have hA := diff_pack_input_eq old hashOf files1 files2 hperm hpaths
  refine ⟨?_, ?_, ?_, ?_, ?_, ?_, ?_⟩
  · exact sortByPath_sorted (fun x : Nat × (Nat × FileEntry) => x.2.2.path) _
  · exact sortByPath_sorted (fun x : Nat × FileEntry => x.2.path) _
  · rw [differential_splits, write_bak_files_eq_packFiles, packFiles_hashes,
      List.map_map]
    rfl
  · rw [differential_splits, differential_splits, hA]
  · intro n
    have hpk : (differential_backup S cap hashOf old files1).pack =
        (differential_backup S cap hashOf old files2).pack := by
      show (write_bak_files S cap hashOf ((diffFilesToBackup old hashOf files1).map
          (fun x => (x.1, x.2.2)))).2 =
        (write_bak_files S cap hashOf ((diffFilesToBackup old hashOf files2).map
          (fun x => (x.1, x.2.2)))).2
      rw [hA]
    rw [hpk]
  · rw [differential_indexRows, differential_indexRows]
    apply List.Perm.append
    · have h1 := find_rows_perm (scanIdx files1) (diffFilesToBackup old hashOf files1)
        (scanIdx_keys_nodup files1) (diffFilesToBackup_keys_nodup old hashOf files1)
        (diffFilesToBackup_mem_scanIdx old hashOf files1)
      have h2 := find_rows_perm (scanIdx files2) (diffFilesToBackup old hashOf files2)
        (scanIdx_keys_nodup files2) (diffFilesToBackup_keys_nodup old hashOf files2)
        (diffFilesToBackup_mem_scanIdx old hashOf files2)
      have hmapeq : (diffFilesToBackup old hashOf files1).map
          (fun x => rowOf x.2.2 x.1) =
          (diffFilesToBackup old hashOf files2).map (fun x => rowOf x.2.2 x.1) := by
        have e1 : (diffFilesToBackup old hashOf files1).map
            (fun x => rowOf x.2.2 x.1) =
            ((diffFilesToBackup old hashOf files1).map (fun x => (x.1, x.2.2))).map
              (fun p => rowOf p.2 p.1) := by
          rw [List.map_map]
          rfl
        have e2 : (diffFilesToBackup old hashOf files2).map
            (fun x => rowOf x.2.2 x.1) =
            ((diffFilesToBackup old hashOf files2).map (fun x => (x.1, x.2.2))).map
              (fun p => rowOf p.2 p.1) := by
          rw [List.map_map]
          rfl
        rw [e1, e2, hA]
      rw [hmapeq] at h1
      exact h1.trans h2.symm
    · have hd1 : (diffDuplicates old hashOf files1).map (fun d => rowOf d.1.2 d.2) =
          ((diffDuplicates old hashOf files1).map (fun d => (d.1.2, d.2))).map
            (fun p => rowOf p.1 p.2) := by
        rw [List.map_map]
        rfl
      have hd2 : (diffDuplicates old hashOf files2).map (fun d => rowOf d.1.2 d.2) =
          ((diffDuplicates old hashOf files2).map (fun d => (d.1.2, d.2))).map
            (fun p => rowOf p.1 p.2) := by
        rw [List.map_map]
        rfl
      rw [hd1, hd2, diffDuplicates_proj, diffDuplicates_proj]
      exact ((hperm.filterMap _).append (hperm.filterMap _)).map _
  · intro hhashes
    have hB := initial_ftb_eq hashOf files1 files2 hperm hpaths hhashes
    refine ⟨?_, ?_, ?_⟩
    · rw [initial_splits, initial_splits, hB]
    · intro n
      have hpk : (initial_backup S cap hashOf files1).pack =
          (initial_backup S cap hashOf files2).pack := by
        rw [initial_pack, initial_pack, hB]
      rw [hpk]
    · rw [initial_indexRows, initial_indexRows]
      exact hperm.map _

/-- Witness for claim C8 (amended) on a two-file scan and its swap. -/
theorem claim_c8_witness :
    (([{ path := [97], mtime := 0, content := [1] },
       { path := [98], mtime := 0, content := [2, 3] }] : List FileEntry).Perm
      [{ path := [98], mtime := 0, content := [2, 3] },
       { path := [97], mtime := 0, content := [1] }]) ∧
    (([({ path := [97], mtime := 0, content := [1] } : FileEntry),
       { path := [98], mtime := 0, content := [2, 3] }].map (fun e => e.path)).Nodup) ∧
    (differential_backup 4 10 (fun c => c.length) []
      [{ path := [97], mtime := 0, content := [1] },
       { path := [98], mtime := 0, content := [2, 3] }]).splits =
    (differential_backup 4 10 (fun c => c.length) []
      [{ path := [98], mtime := 0, content := [2, 3] },
       { path := [97], mtime := 0, content := [1] }]).splits :=
  ⟨by decide, by decide,
    (claim_c8_sorted_and_deterministic 4 10 (fun c => c.length) []
      [{ path := [97], mtime := 0, content := [1] },
       { path := [98], mtime := 0, content := [2, 3] }]
      [{ path := [98], mtime := 0, content := [2, 3] },
       { path := [97], mtime := 0, content := [1] }]
      (by decide) (by decide)).2.2.2.1⟩
